import Mathlib

/-!
# contextflight: an interleaving model of `Group.Do`, `Group.DoChan` and `Group.Forget`

The Go package wraps `singleflight.Group` so that the context handed to the
deduplicated function is driven by a per-key `keyContext` (a `sync.WaitGroup`
counting the callers, a fresh root context, and a goroutine that waits for the
counter to reach zero and then cancels the context).

The embedding is a labelled transition system.  Every goroutine of the program
is a small program counter machine, and one `Action` is one atomic statement of
one goroutine:

* `main i`     the goroutine that called `Do` / `DoChan` (lines 32-56, 61-85),
* `watcher i`  the goroutine of lines 45-48 / 74-77,
* `wrapper r`  the closure handed to the deduplicator (lines 50-55 / 79-84)
               run for its record `r`, followed by the deduplicator storing
               the result,
* `reaper k`   the goroutine of lines 108-111,
* `cancel i`   the environment cancelling the context caller `i` passed in,
* `Forget key` a call of `Group.Forget`.

Statements that run under a mutex (`getKeyContext`, `deleteKeyContext`, the
table lookup of the deduplicator) are single atomic steps; everything else is
one step per statement.  A schedule is an interleaving of these statements;
what can only happen in the middle of one library call overlapping another
(the two `Add called concurrently with Wait` checks of `sync.WaitGroup`) is
below this granularity and is not modelled.

Library behaviour the model relies on:

* `sync.WaitGroup`: `Add` and `Done` change the counter atomically; `Wait`
  returns at once if the counter is zero when it is called, and otherwise
  sleeps until a `Done` takes the counter to zero; a waiter that wakes up and
  finds the counter raised again panics, which kills the process; `Done` on a
  zero counter panics;
* `context.WithCancel`: the derived context is done once its parent is
  cancelled or its own `cancel` has been called, and stays done;
* the deduplicator (`singleflight.Group`) behaves as section 6 of the
  specification describes it;
* the user function `fn` is abstracted by the result it returns as a function of
  whether it sees its context cancelled; it looks at its context once, at the
  moment it returns (a `select` between `ctx.Done()` and a timer).
-/

namespace Contextflight

/-- Go `error` values that matter here: `context.Canceled` and anything else. -/
inductive Err where
  | canceled
  | other (code : Nat)
deriving DecidableEq, Repr

/-- Go `interface{}` results: the zero value `nil` or a string. -/
inductive Val where
  | null
  | str (v : String)
deriving DecidableEq, Repr

/-- The pair `(v interface{}, err error)` returned by the user function. -/
abbrev Res := Val × Option Err

/-- Keys are Go strings. -/
abbrev Key := String

/-- Program counter of the goroutine executing `Do` / `DoChan`. -/
inductive PC where
  /-- about to run `g.once.Do(...)` -/
  | once
  /-- about to run `kc := g.getKeyContext(key)` -/
  | getKc
  /-- about to run `kc.wg.Add(1)` -/
  | add
  /-- about to run `context.WithCancel(ctx)`, `defer cancel()` and the `go` statement -/
  | spawn
  /-- about to enter the deduplicator (`g.sf.Do` / `g.sf.DoChan`) -/
  | sfEnter
  /-- blocked inside `g.sf.Do` until the call record is done (`Do` only) -/
  | inSf
  /-- about to run the deferred `cancel()` -/
  | deferCancel
  /-- the call of `DoChan` has returned its channel; the result has not arrived on it yet -/
  | recv
  /-- the call of `Do` has returned / the channel of `DoChan` has delivered -/
  | returned
deriving DecidableEq, Repr

/-- Program counter of the closure handed to the deduplicator. -/
inductive WPC where
  /-- about to call `fn(kc.ctx)` -/
  | fnCall
  /-- the user function `fn` is running -/
  | fnRunning
  /-- about to run the deferred `g.deleteKeyContext(key)` -/
  | delete
  /-- about to run the deferred `kc.cancel()` -/
  | kcCancel
  /-- about to store the result in the call record and release the waiters -/
  | sfFinish
  /-- the deduplicator has finished this call -/
  | finished
deriving DecidableEq, Repr

/-- State of the goroutine `go func() { <-ctx.Done(); kc.wg.Done() }()`. -/
inductive Watcher where
  | unspawned
  | waiting
  | fired
deriving DecidableEq, Repr

/-- State of the goroutine `go func() { kc.wg.Wait(); kc.cancel() }()`. -/
inductive Reaper where
  /-- about to call `kc.wg.Wait()` -/
  | waiting
  /-- inside `kc.wg.Wait()`, registered as a waiter and asleep: the counter
  was not zero when `Wait` looked at it -/
  | blocked
  /-- inside `kc.wg.Wait()`, released by the `Done` that took the counter to
  zero, not yet running again -/
  | released
  /-- the call of `Wait` has returned, `kc.cancel()` not yet called -/
  | woke
  | finished
deriving DecidableEq, Repr

/-- The Go struct `keyContext`: `wg` is its counter, `ctx`/`cancel` the flag
`cancelled`; `reaper` is the goroutine started for it in `getKeyContext`. -/
structure keyContext where
  counter : Nat
  cancelled : Bool
  reaper : Reaper
deriving DecidableEq, Repr

/-- Modelled from the spec: the in-flight record of the single-flight
deduplicator (section 6: the first call for a key runs the thunk and stores
the result, later calls wait and share it, `shared` is true iff more than one
caller got it).  The record carries the thunk it runs: the closure of lines
50-55 / 79-84 with the variables `key`, `kc` and `fn` it captured and its
program counter.  Ghost fields: `observed` (what `fn` saw when it returned,
`some true` meaning its context was cancelled), `runs` (how many times `fn`
was invoked for this record) and `owner` (the caller that created it). -/
structure SfCall where
  val : Res
  dups : Nat
  done : Bool
  key : Key
  kc : Nat
  fn : Bool → Res
  wpc : WPC
  observed : Option Bool
  runs : Nat
  owner : Nat

/-- One call of `Do` or `DoChan`, with its local variables and its goroutines. -/
structure Caller where
  /-- whether this is a call of `DoChan` (`true`) or of `Do` (`false`) -/
  isChan : Bool
  key : Key
  /-- the user function: its result as a function of whether it saw its
  context cancelled at its cancellation check -/
  fn : Bool → Res
  /-- the context passed in by the caller has been cancelled -/
  ctxCancelled : Bool
  pc : PC
  /-- the local variable `kc` (an address in `State.heap`) -/
  kc : Option Nat
  /-- ghost: `kc.wg.Add(1)` has run -/
  registered : Bool
  /-- the `cancel` of the derived context has been called -/
  privCancelled : Bool
  watcher : Watcher
  /-- the deduplicator record this caller is attached to -/
  call : Option Nat
  /-- this caller created the record, so the closure it passed is the one that runs -/
  leader : Bool
  /-- the `(v, err, shared)` this call returned or delivered -/
  ret : Option (Res × Bool)

/-- The Go struct `Group`: `once`, the map `kcs` (`none` is Go's `nil`
pointer), and the table of the deduplicator `sf`. -/
structure Group where
  once : Bool
  kcs : Key → Option Nat
  sf : Key → Option Nat

/-- The whole program state: the group, the allocated `keyContext`s, the
deduplicator's call records and the callers. -/
structure State where
  /-- a goroutine has panicked: the process is dead -/
  crashed : Bool
  g : Group
  heap : Nat → keyContext
  nheap : Nat
  calls : Nat → SfCall
  ncalls : Nat
  callers : Nat → Caller
  ncallers : Nat

/-- A fresh call of `Do` (`isChan = false`) or `DoChan` that has not run any statement. -/
def Caller.fresh (isChan : Bool) (key : Key) (fn : Bool → Res) : Caller :=
  { isChan := isChan, key := key, fn := fn, ctxCancelled := false, pc := .once,
    kc := none, registered := false, privCancelled := false, watcher := .unspawned,
    call := none, leader := false, ret := none }

/-- The zero value of a `keyContext` as `getKeyContext` builds it. -/
def keyContext.fresh : keyContext :=
  { counter := 0, cancelled := false, reaper := .waiting }

/-- The record the deduplicator creates for the first caller `owner` of a key,
holding the closure over `key`, `kc` and `fn`. -/
def SfCall.fresh (key : Key) (kc : Nat) (fn : Bool → Res) (owner : Nat) : SfCall :=
  { val := (.null, none), dups := 0, done := false, key := key, kc := kc, fn := fn,
    wpc := .fnCall, observed := none, runs := 0, owner := owner }

/-- The zero-value `Group` with nothing allocated and no caller. -/
def init : State :=
  { crashed := false,
    g := { once := false, kcs := fun _ => none, sf := fun _ => none },
    heap := fun _ => keyContext.fresh, nheap := 0,
    calls := fun _ => SfCall.fresh "" 0 (fun _ => (.null, none)) 0,
    ncalls := 0,
    callers := fun _ => Caller.fresh false "" (fun _ => (.null, none)),
    ncallers := 0 }

/-- Pointwise update of a table. -/
def upd {α β : Type} [DecidableEq α] (f : α → β) (a : α) (v : β) : α → β :=
  fun x => if x = a then v else f x

/-- Overwrite caller `i`. -/
def State.setCaller (s : State) (i : Nat) (c : Caller) : State :=
  { s with callers := upd s.callers i c }

/-- Overwrite the `keyContext` at address `k`. -/
def State.setKc (s : State) (k : Nat) (x : keyContext) : State :=
  { s with heap := upd s.heap k x }

/-- Overwrite the deduplicator record `c`. -/
def State.setCall (s : State) (c : Nat) (x : SfCall) : State :=
  { s with calls := upd s.calls c x }

/-- The function `getKeyContext`, lines 94-117, one critical section of `kcsMu`: return the
entry of `key`, or allocate a `keyContext` with counter zero, start its reaper
and store it.  Storing into the map before `once` has made it panics. -/
def getKeyContext (s : State) (key : Key) : Option (State × Nat) :=
  match s.g.kcs key with
  | some k => some (s, k)
  | none =>
    if s.g.once then
      some ({ s with
                g := { s.g with kcs := upd s.g.kcs key (some s.nheap) },
                heap := upd s.heap s.nheap keyContext.fresh,
                nheap := s.nheap + 1 }, s.nheap)
    else none

/-- The function `deleteKeyContext`, lines 120-125: `delete(g.kcs, key)` under `kcsMu`. -/
def deleteKeyContext (s : State) (key : Key) : State :=
  { s with g := { s.g with kcs := upd s.g.kcs key none } }

/-- The method `Forget`, lines 89-91: `g.sf.Forget(key)`, which drops the deduplicator's
record for `key` and nothing else. -/
def Forget (s : State) (key : Key) : State :=
  { s with g := { s.g with sf := upd s.g.sf key none } }

/-- The program counter after the deduplicator has been entered: `Do` blocks
in it, `DoChan` goes on to its deferred `cancel()`. -/
def afterEnter (isChan : Bool) : PC := if isChan then .deferCancel else .inSf

/-- One statement of the goroutine running `Do` (lines 32-56) or `DoChan`
(lines 61-85) for caller `i`.  At `sfEnter` the deduplicator looks the key up
under its own mutex: an in-flight record is joined (`dups` counts the joiners),
otherwise a record is created for the closure of lines 50-55 / 79-84.  At
`inSf` (`Do`) and `recv` (`DoChan`) the stored result is read once the record
is done; `Do` reports `shared` as `dups > 0` to the leader and as `true` to a
follower, `DoChan` delivers `dups > 0` to everyone. -/
def mainStep (s : State) (i : Nat) : Option State :=
  let c := s.callers i
  match c.pc with
  | .once =>
    some ({ s with g := { s.g with once := true } }.setCaller i { c with pc := .getKc })
  | .getKc =>
    match getKeyContext s c.key with
    | none => none
    | some (s1, k) => some (s1.setCaller i { c with kc := some k, pc := .add })
  | .add =>
    match c.kc with
    | none => none
    | some k =>
      some ((s.setKc k { s.heap k with counter := (s.heap k).counter + 1 }).setCaller i
        { c with registered := true, pc := .spawn })
  | .spawn =>
    some (s.setCaller i { c with watcher := .waiting, pc := .sfEnter })
  | .sfEnter =>
    match s.g.sf c.key with
    | some r =>
      some ((s.setCall r { s.calls r with dups := (s.calls r).dups + 1 }).setCaller i
        { c with call := some r, leader := false, pc := afterEnter c.isChan })
    | none =>
      match c.kc with
      | none => none
      | some k =>
        some ({ s with
                  g := { s.g with sf := upd s.g.sf c.key (some s.ncalls) },
                  calls := upd s.calls s.ncalls (SfCall.fresh c.key k c.fn i),
                  ncalls := s.ncalls + 1 }.setCaller i
          { c with call := some s.ncalls, leader := true, pc := afterEnter c.isChan })
  | .inSf =>
    match c.call with
    | none => none
    | some r =>
      if (s.calls r).done then
        some (s.setCaller i
          { c with ret := some ((s.calls r).val, if c.leader then decide (0 < (s.calls r).dups) else true),
                   pc := .deferCancel })
      else none
  | .deferCancel =>
    some (s.setCaller i
      { c with privCancelled := true, pc := if c.isChan then .recv else .returned })
  | .recv =>
    match c.call with
    | none => none
    | some r =>
      if (s.calls r).done then
        some (s.setCaller i
          { c with ret := some ((s.calls r).val, decide (0 < (s.calls r).dups)), pc := .returned })
      else none
  | .returned => none

/-- The deduplicator drops record `r` from its table when the call finishes,
unless the entry of `key` is no longer `r` (it was forgotten, and maybe
replaced). -/
def sfRelease (sf : Key → Option Nat) (key : Key) (r : Nat) : Key → Option Nat :=
  if sf key = some r then upd sf key none else sf

/-- One statement of the thunk of record `r`, the closure of lines 50-55 /
79-84: call `fn(kc.ctx)`, let it return, run the deferred
`g.deleteKeyContext(key)` and then the deferred `kc.cancel()` (deferred calls
run last-in first-out); finally the deduplicator stores the result, releases
the waiters and drops the record from its table if it is still the one there. -/
def wrapperStep (s : State) (r : Nat) : Option State :=
  let c := s.calls r
  match c.wpc with
  | .fnCall => some (s.setCall r { c with runs := c.runs + 1, wpc := .fnRunning })
  | .fnRunning =>
    some (s.setCall r { c with observed := some (s.heap c.kc).cancelled, wpc := .delete })
  | .delete => some ((deleteKeyContext s c.key).setCall r { c with wpc := .kcCancel })
  | .kcCancel =>
    some ((s.setKc c.kc { s.heap c.kc with cancelled := true }).setCall r { c with wpc := .sfFinish })
  | .sfFinish =>
    match c.observed with
    | none => none
    | some b =>
      some ({ s with g := { s.g with sf := sfRelease s.g.sf c.key r } }.setCall r
        { c with val := c.fn b, done := true, wpc := .finished })
  | .finished => none

/-- The effect of `kc.wg.Done()` on a `keyContext` whose counter is positive:
the counter drops by one, and the `Done` that takes it from one to zero
releases the reaper if it is asleep in `Wait`. -/
def keyContext.wgDone (x : keyContext) : keyContext :=
  { x with counter := x.counter - 1,
           reaper := if x.counter = 1 ∧ x.reaper = .blocked then .released else x.reaper }

/-- The goroutine of lines 45-48 / 74-77: once the derived context is done
(the caller's context was cancelled, or the deferred `cancel()` ran) call
`kc.wg.Done()`.  The model has no step for a `Done` on a zero counter (it
would panic; the counting invariant shows it is never reached). -/
def watcherStep (s : State) (i : Nat) : Option State :=
  let c := s.callers i
  match c.watcher, c.kc with
  | .waiting, some k =>
    if (c.ctxCancelled || c.privCancelled) && decide (0 < (s.heap k).counter) then
      some ((s.setKc k (s.heap k).wgDone).setCaller i { c with watcher := .fired })
    else none
  | _, _ => none

/-- The goroutine of lines 108-111, `kc.wg.Wait()` then `kc.cancel()`.
`Wait` returns at once if the counter is zero when it is called; otherwise it
registers as a waiter and sleeps until a `Done` takes the counter to zero.
When it runs again it checks that the counter is still zero: if a
`kc.wg.Add(1)` came in between, it panics (`sync: WaitGroup is reused before
previous Wait has returned`) and the process dies. -/
def reaperStep (s : State) (k : Nat) : Option State :=
  match (s.heap k).reaper with
  | .waiting =>
    if (s.heap k).counter = 0 then some (s.setKc k { s.heap k with reaper := .woke })
    else some (s.setKc k { s.heap k with reaper := .blocked })
  | .blocked => none
  | .released =>
    if (s.heap k).counter = 0 then some (s.setKc k { s.heap k with reaper := .woke })
    else some { s with crashed := true }
  | .woke => some (s.setKc k { s.heap k with cancelled := true, reaper := .finished })
  | .finished => none

/-- The atomic steps of the program. -/
inductive Action where
  /-- a goroutine calls `g.Do(ctx, key, fn)` -/
  | Do (key : Key) (fn : Bool → Res)
  /-- a goroutine calls `g.DoChan(ctx, key, fn)` -/
  | DoChan (key : Key) (fn : Bool → Res)
  /-- a goroutine calls `g.Forget(key)` -/
  | Forget (key : Key)
  /-- the context passed by caller `i` is cancelled -/
  | cancel (i : Nat)
  | main (i : Nat)
  /-- the thunk of deduplicator record `r` -/
  | wrapper (r : Nat)
  | watcher (i : Nat)
  | reaper (k : Nat)

/-- A new caller enters with index `ncallers`. -/
def State.addCaller (s : State) (isChan : Bool) (key : Key) (fn : Bool → Res) : State :=
  { s with callers := upd s.callers s.ncallers (Caller.fresh isChan key fn),
           ncallers := s.ncallers + 1 }

/-- One atomic step of a live process; `none` when the step is not enabled
(the goroutine is blocked, does not exist, or has finished). -/
def stepLive (s : State) : Action → Option State
  | .Do key fn => some (s.addCaller false key fn)
  | .DoChan key fn => some (s.addCaller true key fn)
  | .Forget key => some (Forget s key)
  | .cancel i =>
    if i < s.ncallers then
      some (s.setCaller i { s.callers i with ctxCancelled := true })
    else none
  | .main i => if i < s.ncallers then mainStep s i else none
  | .wrapper r => if r < s.ncalls then wrapperStep s r else none
  | .watcher i => if i < s.ncallers then watcherStep s i else none
  | .reaper k => if k < s.nheap then reaperStep s k else none

/-- One atomic step; after a panic nothing runs any more. -/
def step (s : State) (a : Action) : Option State :=
  if s.crashed then none else stepLive s a

/-- Run a schedule from `s`; `none` if some step of it is not enabled. -/
def run (s : State) : List Action → Option State
  | [] => some s
  | a :: tr => (step s a).bind (fun s1 => run s1 tr)

/-- Reachable states of the zero-value group. -/
def Reachable (s : State) : Prop := ∃ tr, run init tr = some s

/-- The function of `TestSimpleDoCall`: `return "foo", ctx.Err()`. -/
def fnFoo : Bool → Res := fun b => (.str "foo", if b then some .canceled else none)

/-- The function of `TestTwoDoCallsWithOneCancelledContext`: return
`"", ctx.Err()` if the context is done, otherwise count the call and return
`"foo", nil`. -/
def fnSelect : Bool → Res := fun b => if b then (.str "", some .canceled) else (.str "foo", none)

/-- Schedule: one caller, the reaper of its fresh `keyContext` runs before `kc.wg.Add(1)`. -/
def traceReaperFirst : List Action :=
  [.Do "test" fnSelect, .main 0, .main 0, .reaper 0, .reaper 0]

/-- Position of a program point of `Do` / `DoChan` in program order. -/
def PC.rank : PC → Nat
  | .once => 0
  | .getKc => 1
  | .add => 2
  | .spawn => 3
  | .sfEnter => 4
  | .inSf => 5
  | .deferCancel => 6
  | .recv => 7
  | .returned => 8

/-- Position of a program point of the deduplicated closure in program order. -/
def WPC.rank : WPC → Nat
  | .fnCall => 0
  | .fnRunning => 1
  | .delete => 2
  | .kcCancel => 3
  | .sfFinish => 4
  | .finished => 5

/-- The local variables of a caller agree with its program counter. -/
def Caller.Shape (c : Caller) : Prop :=
  (c.kc = none ↔ c.pc.rank < 2) ∧
  (c.registered = true ↔ 3 ≤ c.pc.rank) ∧
  (c.watcher = .unspawned ↔ c.pc.rank < 4) ∧
  (c.call = none ↔ c.pc.rank < 5) ∧
  (c.ret = none ↔ c.pc.rank < 6 ∨ (c.isChan = true ∧ c.pc.rank < 8)) ∧
  (c.pc = .inSf → c.isChan = false) ∧
  (c.pc = .recv → c.isChan = true) ∧
  (c.call = none → c.leader = false) ∧
  (c.privCancelled = true ↔ 7 ≤ c.pc.rank)

/-- The fields of a deduplicator record agree with the program counter of its thunk. -/
def SfCall.Shape (c : SfCall) : Prop :=
  (c.done = true ↔ c.wpc = .finished) ∧
  (c.runs = if c.wpc = .fnCall then 0 else 1) ∧
  (c.observed = none ↔ c.wpc.rank ≤ 1) ∧
  (c.done = true → ∃ b, c.observed = some b ∧ c.val = c.fn b)

/-- A reaper that has finished has cancelled its context, and a reaper asleep
in `Wait` sees a positive counter. -/
def keyContext.Shape (x : keyContext) : Prop :=
  (x.reaper = .finished → x.cancelled = true) ∧ (x.reaper = .blocked → 0 < x.counter)

/-- Invariant of the reachable states: shapes, bounds of the addresses, and
the link between a deduplicator record and the caller that created it. -/
structure Inv (s : State) : Prop where
  shape : ∀ i, (s.callers i).Shape
  cshape : ∀ r, (s.calls r).Shape
  kshape : ∀ k, (s.heap k).Shape
  kcs_lt : ∀ key k, s.g.kcs key = some k → k < s.nheap
  sf_lt : ∀ key r, s.g.sf key = some r → r < s.ncalls
  kc_lt : ∀ i k, (s.callers i).kc = some k → k < s.nheap
  call_lt : ∀ i r, (s.callers i).call = some r → r < s.ncalls
  thunk_kc_lt : ∀ r, r < s.ncalls → (s.calls r).kc < s.nheap
  ret_val : ∀ i v sh, (s.callers i).ret = some (v, sh) →
    ∃ r, (s.callers i).call = some r ∧ (s.calls r).done = true ∧ (s.calls r).val = v
  owner : ∀ i r, (s.callers i).leader = true → (s.callers i).call = some r →
    (s.calls r).owner = i ∧ (s.calls r).fn = (s.callers i).fn ∧
      (s.calls r).key = (s.callers i).key ∧ (s.callers i).kc = some (s.calls r).kc
  owner_ok : ∀ r, r < s.ncalls → (s.calls r).owner < s.ncallers ∧
    (s.callers (s.calls r).owner).leader = true ∧ (s.callers (s.calls r).owner).call = some r

/-- Caller `c` counts in the `sync.WaitGroup` of the `keyContext` at `k`: it
has run `kc.wg.Add(1)` there and its watcher has not yet run `kc.wg.Done()`. -/
def Caller.holds (c : Caller) (k : Nat) : Bool :=
  decide (c.kc = some k) && c.registered && decide (c.watcher ≠ .fired)

/-- The weight of a caller in the counter of the `keyContext` at `k`: `1` if it counts there, else `0`. -/
def Caller.weight (c : Caller) (k : Nat) : Nat := if c.holds k then 1 else 0

/-- The number of callers among the first `n` that count in the `keyContext` at `k`. -/
def countHolders (callers : Nat → Caller) (n k : Nat) : Nat :=
  (Finset.range n).sum (fun i => (callers i).weight k)

/-- The number of callers that count in the `keyContext` at `k`. -/
def participants (s : State) (k : Nat) : Nat := countHolders s.callers s.ncallers k

/-- Every `sync.WaitGroup` counter equals the number of its participants. -/
def CountInv (s : State) : Prop := ∀ k, (s.heap k).counter = participants s k

/-- Every call made so far has returned. -/
def State.quiet (s : State) : Bool :=
  (List.range s.ncallers).all (fun i => decide ((s.callers i).pc = .returned))

/-- In a sequential use of the group a new `Do` starts only when every earlier
call has returned, and `DoChan` is not used; the other goroutines (watchers,
reapers) and `Forget` are scheduled freely. -/
def seqOk (s : State) : Action → Bool
  | .Do _ _ => s.quiet
  | .DoChan _ _ => false
  | _ => true

/-- Run a schedule of non-overlapping `Do` calls; `none` if a step is not
enabled or a call would overlap an earlier one. -/
def runSeq (s : State) : List Action → Option State
  | [] => some s
  | a :: tr => if seqOk s a then (step s a).bind (fun s1 => runSeq s1 tr) else none

/-- The schedule in which caller `i` runs `Do` on its own from start to
return, its thunk being the one of record `r`. -/
def doAlone (i r : Nat) : List Action :=
  [.main i, .main i, .main i, .main i, .main i,
   .wrapper r, .wrapper r, .wrapper r, .wrapper r, .wrapper r,
   .main i, .main i]

/-- Invariant of the states reached by non-overlapping `Do` calls. -/
structure SeqInv (s : State) : Prop where
  others : ∀ i, i + 1 < s.ncallers → (s.callers i).pc = .returned
  noChan : ∀ i, (s.callers i).isChan = false
  leader : ∀ i r, (s.callers i).call = some r → (s.callers i).leader = true
  dups : ∀ r, (s.calls r).dups = 0
  sf_key : ∀ key r, s.g.sf key = some r → (s.calls r).key = key ∧ (s.calls r).done = false
  waiting : ∀ r, r < s.ncalls → (s.calls r).done = false →
    (s.callers (s.calls r).owner).pc = .inSf
  unshared : ∀ i v sh, (s.callers i).ret = some (v, sh) → sh = false
  entry : ∀ key k, s.g.kcs key = some k →
    0 < s.ncallers ∧ (s.callers (s.ncallers - 1)).key = key ∧
      (s.callers (s.ncallers - 1)).kc = some k ∧
      2 ≤ (s.callers (s.ncallers - 1)).pc.rank ∧ (s.callers (s.ncallers - 1)).pc.rank ≤ 5 ∧
      ∀ r, (s.callers (s.ncallers - 1)).call = some r → (s.calls r).wpc.rank ≤ 2
  unregistered : ∀ i k, (s.callers i).kc = some k → (s.callers i).registered = false →
    (s.heap k).counter = 0 ∧ (s.heap k).reaper ≠ .blocked ∧ (s.heap k).reaper ≠ .released
  released : ∀ k, (s.heap k).reaper = .released → (s.heap k).counter = 0
  live : s.crashed = false
  beyond : ∀ i, s.ncallers ≤ i → (s.callers i).kc = none

/-- The transitions of the program, one constructor per atomic statement,
with the state after the statement written out.  `step` takes exactly these
transitions (`trans_of_step`). -/
inductive Trans (s : State) : State → Prop where
  | addCaller (isChan : Bool) (key : Key) (fn : Bool → Res) :
    Trans s (s.addCaller isChan key fn)
  | forget (key : Key) : Trans s (Forget s key)
  | cancel (i : Nat) (hi : i < s.ncallers) :
    Trans s (s.setCaller i { s.callers i with ctxCancelled := true })
  | once (i : Nat) (hi : i < s.ncallers) (hpc : (s.callers i).pc = .once) :
    Trans s ({ s with g := { s.g with once := true } }.setCaller i
      { s.callers i with pc := .getKc })
  | getKcOld (i k : Nat) (hi : i < s.ncallers) (hpc : (s.callers i).pc = .getKc)
    (hk : s.g.kcs (s.callers i).key = some k) :
    Trans s (s.setCaller i { s.callers i with kc := some k, pc := .add })
  | getKcNew (i : Nat) (hi : i < s.ncallers) (hpc : (s.callers i).pc = .getKc)
    (hk : s.g.kcs (s.callers i).key = none) (ho : s.g.once = true) :
    Trans s ({ s with
                g := { s.g with kcs := upd s.g.kcs (s.callers i).key (some s.nheap) },
                heap := upd s.heap s.nheap keyContext.fresh,
                nheap := s.nheap + 1 }.setCaller i
      { s.callers i with kc := some s.nheap, pc := .add })
  | add (i k : Nat) (hi : i < s.ncallers) (hpc : (s.callers i).pc = .add)
    (hk : (s.callers i).kc = some k) :
    Trans s ((s.setKc k { s.heap k with counter := (s.heap k).counter + 1 }).setCaller i
      { s.callers i with registered := true, pc := .spawn })
  | spawn (i : Nat) (hi : i < s.ncallers) (hpc : (s.callers i).pc = .spawn) :
    Trans s (s.setCaller i { s.callers i with watcher := .waiting, pc := .sfEnter })
  | enterFollower (i r : Nat) (hi : i < s.ncallers) (hpc : (s.callers i).pc = .sfEnter)
    (hr : s.g.sf (s.callers i).key = some r) :
    Trans s ((s.setCall r { s.calls r with dups := (s.calls r).dups + 1 }).setCaller i
      { s.callers i with call := some r, leader := false,
                         pc := afterEnter (s.callers i).isChan })
  | enterLeader (i k : Nat) (hi : i < s.ncallers) (hpc : (s.callers i).pc = .sfEnter)
    (hr : s.g.sf (s.callers i).key = none) (hk : (s.callers i).kc = some k) :
    Trans s ({ s with
                g := { s.g with sf := upd s.g.sf (s.callers i).key (some s.ncalls) },
                calls := upd s.calls s.ncalls
                  (SfCall.fresh (s.callers i).key k (s.callers i).fn i),
                ncalls := s.ncalls + 1 }.setCaller i
      { s.callers i with call := some s.ncalls, leader := true,
                         pc := afterEnter (s.callers i).isChan })
  | inSf (i r : Nat) (hi : i < s.ncallers) (hpc : (s.callers i).pc = .inSf)
    (hc : (s.callers i).call = some r) (hd : (s.calls r).done = true) :
    Trans s (s.setCaller i
      { s.callers i with
          ret := some ((s.calls r).val,
            if (s.callers i).leader then decide (0 < (s.calls r).dups) else true),
          pc := .deferCancel })
  | deferCancel (i : Nat) (hi : i < s.ncallers) (hpc : (s.callers i).pc = .deferCancel) :
    Trans s (s.setCaller i
      { s.callers i with privCancelled := true,
                         pc := if (s.callers i).isChan then .recv else .returned })
  | recv (i r : Nat) (hi : i < s.ncallers) (hpc : (s.callers i).pc = .recv)
    (hc : (s.callers i).call = some r) (hd : (s.calls r).done = true) :
    Trans s (s.setCaller i
      { s.callers i with
          ret := some ((s.calls r).val, decide (0 < (s.calls r).dups)), pc := .returned })
  | fnCall (r : Nat) (hr : r < s.ncalls) (hw : (s.calls r).wpc = .fnCall) :
    Trans s (s.setCall r { s.calls r with runs := (s.calls r).runs + 1, wpc := .fnRunning })
  | fnReturn (r : Nat) (hr : r < s.ncalls) (hw : (s.calls r).wpc = .fnRunning) :
    Trans s (s.setCall r
      { s.calls r with observed := some (s.heap (s.calls r).kc).cancelled, wpc := .delete })
  | delete (r : Nat) (hr : r < s.ncalls) (hw : (s.calls r).wpc = .delete) :
    Trans s ((deleteKeyContext s (s.calls r).key).setCall r { s.calls r with wpc := .kcCancel })
  | kcCancel (r : Nat) (hr : r < s.ncalls) (hw : (s.calls r).wpc = .kcCancel) :
    Trans s ((s.setKc (s.calls r).kc
      { s.heap (s.calls r).kc with cancelled := true }).setCall r
        { s.calls r with wpc := .sfFinish })
  | sfFinish (r : Nat) (b : Bool) (hr : r < s.ncalls) (hw : (s.calls r).wpc = .sfFinish)
    (hb : (s.calls r).observed = some b) :
    Trans s ({ s with g := { s.g with sf := sfRelease s.g.sf (s.calls r).key r } }.setCall r
      { s.calls r with val := (s.calls r).fn b, done := true, wpc := .finished })
  | watcher (i k : Nat) (hi : i < s.ncallers) (hw : (s.callers i).watcher = .waiting)
    (hk : (s.callers i).kc = some k)
    (hc : (s.callers i).ctxCancelled = true ∨ (s.callers i).privCancelled = true)
    (hpos : 0 < (s.heap k).counter) :
    Trans s ((s.setKc k (s.heap k).wgDone).setCaller i
      { s.callers i with watcher := .fired })
  | reaperWake (k : Nat) (hk : k < s.nheap) (hr : (s.heap k).reaper = .waiting)
    (hz : (s.heap k).counter = 0) :
    Trans s (s.setKc k { s.heap k with reaper := .woke })
  | reaperBlock (k : Nat) (hk : k < s.nheap) (hr : (s.heap k).reaper = .waiting)
    (hz : (s.heap k).counter ≠ 0) :
    Trans s (s.setKc k { s.heap k with reaper := .blocked })
  | reaperResume (k : Nat) (hk : k < s.nheap) (hr : (s.heap k).reaper = .released)
    (hz : (s.heap k).counter = 0) :
    Trans s (s.setKc k { s.heap k with reaper := .woke })
  | reaperPanic (k : Nat) (hk : k < s.nheap) (hr : (s.heap k).reaper = .released)
    (hz : (s.heap k).counter ≠ 0) :
    Trans s { s with crashed := true }
  | reaperCancel (k : Nat) (hk : k < s.nheap) (hr : (s.heap k).reaper = .woke) :
    Trans s (s.setKc k { s.heap k with cancelled := true, reaper := .finished })

/-- The state a schedule leads to from the zero-value group (the initial
state if the schedule is not executable). -/
def stateAfter (tr : List Action) : State := (run init tr).getD init

/-- Schedule of `TestTwoDoCallsWithOneCancelledContext` in which the reaper
runs before the first `kc.wg.Add(1)`: both callers enter, only the context of
caller 0 is cancelled, and `fn` is called. -/
def traceOneCancelled : List Action :=
  [.Do "test" fnSelect, .Do "test" fnSelect,
   .main 0, .main 0, .reaper 0, .reaper 0, .main 0, .main 0, .main 0,
   .main 1, .main 1, .main 1, .main 1, .main 1,
   .cancel 0, .wrapper 0]

/-- The schedule `traceOneCancelled` continued until both callers have returned. -/
def traceOneCancelledEnd : List Action :=
  traceOneCancelled ++
    [.wrapper 0, .wrapper 0, .wrapper 0, .wrapper 0, .main 0, .main 0, .main 1, .main 1]

/-- Schedule of `TestTwoDoCalls`: two overlapping callers, the second joins
while the first one's `fn` is running, both return. -/
def traceTwoCalls : List Action :=
  [.Do "test" fnFoo, .Do "test" fnFoo,
   .main 0, .main 0, .main 0, .main 0, .main 0, .wrapper 0,
   .main 1, .main 1, .main 1, .main 1, .main 1,
   .wrapper 0, .wrapper 0, .wrapper 0, .wrapper 0,
   .main 0, .main 0, .main 1, .main 1]

/-- Schedule of `TestTwoDoCallsWithTwoCancelledContext` up to the point where
both contexts are cancelled and both watchers have run while `fn` is running. -/
def traceAllCancelled : List Action :=
  [.Do "test" fnSelect, .Do "test" fnSelect,
   .main 0, .main 0, .main 0, .main 0, .main 0, .wrapper 0,
   .main 1, .main 1, .main 1, .main 1, .main 1,
   .cancel 0, .cancel 1, .watcher 0, .watcher 1]

/-- Schedule of `TestSerialDoCallsForSameKey`: two `Do` calls for one key, the
second starting after the first has returned. -/
def traceSerial : List Action :=
  .Do "test" fnFoo :: doAlone 0 0 ++ .Do "test" fnFoo :: doAlone 1 1

/-- Schedule: a single `DoChan` call whose context is never cancelled;
`DoChan` returns its channel (running its deferred `cancel()`) while `fn` is
running, then the watcher and the reaper run. -/
def traceDoChan : List Action :=
  [.DoChan "k" fnSelect, .main 0, .main 0, .main 0, .main 0, .main 0, .wrapper 0,
   .main 0, .watcher 0, .reaper 0, .reaper 0]

/-- The schedule `traceDoChan` continued until the result is delivered. -/
def traceDoChanEnd : List Action :=
  traceDoChan ++ [.wrapper 0, .wrapper 0, .wrapper 0, .wrapper 0, .main 0]

/-- Schedule: `Do` for `"k"` is in flight with its `fn` running. -/
def traceInFlight : List Action :=
  [.Do "k" fnSelect, .main 0, .main 0, .main 0, .main 0, .main 0, .wrapper 0]

/-- Schedule of scenario S6: while the first `fn` is running, `Forget("k")`
and a second `Do` for `"k"` whose thunk runs to completion. -/
def traceForget : List Action :=
  traceInFlight ++
    [.Forget "k", .Do "k" fnFoo, .main 1, .main 1, .main 1, .main 1, .main 1,
     .wrapper 1, .wrapper 1, .wrapper 1, .wrapper 1, .wrapper 1, .main 1, .main 1]

/-- Schedule: caller 1 runs `getKeyContext` after the leader's thunk has run
its deferred `deleteKeyContext` but before the deduplicator has dropped the
record; it then joins the record as a follower, and everything runs to the
end (both calls return, watchers and reapers finish). -/
def traceLeak : List Action :=
  [.Do "k" fnFoo, .main 0, .main 0, .main 0, .main 0, .main 0,
   .wrapper 0, .wrapper 0, .wrapper 0,
   .Do "k" fnFoo, .main 1, .main 1, .main 1, .main 1, .main 1,
   .wrapper 0, .wrapper 0, .main 0, .main 0, .main 1, .main 1,
   .watcher 0, .watcher 1, .reaper 0, .reaper 0, .reaper 1, .reaper 1]

/-- Schedule: caller 1 fetches the existing `keyContext` while the leader's
`fn` is running. -/
def traceStaleFetch : List Action :=
  [.Do "k" fnSelect, .main 0, .main 0, .main 0, .main 0, .main 0, .wrapper 0,
   .Do "k" fnSelect, .main 1, .main 1]

/-- The schedule `traceStaleFetch` continued: the leader's thunk finishes
(entry removed, context cancelled, record dropped), then caller 1 increments
the counter, enters the deduplicator and its thunk calls `fn`. -/
def traceStale : List Action :=
  traceStaleFetch ++
    [.wrapper 0, .wrapper 0, .wrapper 0, .wrapper 0,
     .main 1, .main 1, .main 1, .wrapper 1]

/-- The schedule `traceStale` continued until both calls have returned. -/
def traceStaleEnd : List Action :=
  traceStale ++
    [.wrapper 1, .wrapper 1, .wrapper 1, .wrapper 1, .main 0, .main 0, .main 1, .main 1]

/-- The schedule `traceForget` continued until the first call has returned:
the first `fn` returns (on the context the second execution's teardown has
cancelled), its thunk finishes and caller 0 takes the result. -/
def traceForgetEnd : List Action :=
  traceForget ++ [.wrapper 0, .wrapper 0, .wrapper 0, .wrapper 0, .main 0, .main 0]

/-- The schedule `traceAllCancelled` continued with `fn` returning before the
reaper has run, until both callers have returned. -/
def traceAllCancelledFnFirst : List Action :=
  traceAllCancelled ++
    [.wrapper 0, .wrapper 0, .wrapper 0, .wrapper 0, .main 0, .main 0, .main 1, .main 1]

/-- The schedule `traceAllCancelled` continued with the reaper running first,
until both callers have returned. -/
def traceAllCancelledReaperFirst : List Action :=
  traceAllCancelled ++
    [.reaper 0, .reaper 0,
     .wrapper 0, .wrapper 0, .wrapper 0, .wrapper 0, .main 0, .main 0, .main 1, .main 1]

/-- Schedule of `TestTwoDoCallsWithTwoCancelledContext` in which the first
caller is cancelled before the second has registered: the reaper is blocked in
`kc.wg.Wait()` at counter 1, the watcher of caller 0 takes the counter to zero
and releases it, and caller 1 fetches the same `keyContext` and runs
`kc.wg.Add(1)` before the reaper resumes. -/
def traceReuse : List Action :=
  [.Do "test" fnSelect, .main 0, .main 0, .main 0, .main 0, .main 0, .wrapper 0,
   .reaper 0, .cancel 0, .watcher 0,
   .Do "test" fnSelect, .main 1, .main 1, .main 1]

/-! ## Invariants of the reachable states -/

theorem shape_fresh (isChan : Bool) (key : Key) (fn : Bool → Res) :
    (Caller.fresh isChan key fn).Shape := by
  cases isChan <;> simp [Caller.Shape, Caller.fresh, PC.rank]

theorem cshape_fresh (key : Key) (kc : Nat) (fn : Bool → Res) (owner : Nat) :
    (SfCall.fresh key kc fn owner).Shape := by
  simp [SfCall.Shape, SfCall.fresh, WPC.rank]

theorem kshape_fresh : keyContext.fresh.Shape := by
  simp [keyContext.Shape, keyContext.fresh]

theorem Inv.setCaller {s : State} (hI : Inv s) (i : Nat) (c : Caller)
    (hshape : c.Shape)
    (hkc : ∀ k, c.kc = some k → k < s.nheap)
    (hcall : ∀ r, c.call = some r → r < s.ncalls)
    (hret : ∀ v sh, c.ret = some (v, sh) →
      ∃ r, c.call = some r ∧ (s.calls r).done = true ∧ (s.calls r).val = v)
    (hown : ∀ r, c.leader = true → c.call = some r →
      (s.calls r).owner = i ∧ (s.calls r).fn = c.fn ∧ (s.calls r).key = c.key ∧
        c.kc = some (s.calls r).kc)
    (hok : ∀ r, r < s.ncalls → (s.calls r).owner = i → c.leader = true ∧ c.call = some r) :
    Inv (s.setCaller i c) := by
  constructor
  · intro j
    by_cases hj : j = i
    · simpa [State.setCaller, upd, hj] using hshape
    · simpa [State.setCaller, upd, hj] using hI.shape j
  · exact hI.cshape
  · exact hI.kshape
  · exact hI.kcs_lt
  · exact hI.sf_lt
  · intro j k
    by_cases hj : j = i
    · simpa [State.setCaller, upd, hj] using hkc k
    · simpa [State.setCaller, upd, hj] using hI.kc_lt j k
  · intro j r
    by_cases hj : j = i
    · simpa [State.setCaller, upd, hj] using hcall r
    · simpa [State.setCaller, upd, hj] using hI.call_lt j r
  · exact hI.thunk_kc_lt
  · intro j v sh
    by_cases hj : j = i
    · simpa [State.setCaller, upd, hj] using hret v sh
    · simpa [State.setCaller, upd, hj] using hI.ret_val j v sh
  · intro j r
    by_cases hj : j = i
    · simpa [State.setCaller, upd, hj] using hown r
    · simpa [State.setCaller, upd, hj] using hI.owner j r
  · intro r hr
    have h := hI.owner_ok r hr
    by_cases hj : (s.calls r).owner = i
    · have := hok r hr hj
      simp [State.setCaller, upd, hj, this]
      exact hj ▸ h.1
    · simpa [State.setCaller, upd, hj] using h

theorem Inv.setKc {s : State} (hI : Inv s) (k : Nat) (x : keyContext) (hx : x.Shape) :
    Inv (s.setKc k x) := by
  constructor
  · exact hI.shape
  · exact hI.cshape
  · intro j
    by_cases hj : j = k
    · simpa [State.setKc, upd, hj] using hx
    · simpa [State.setKc, upd, hj] using hI.kshape j
  · exact hI.kcs_lt
  · exact hI.sf_lt
  · exact hI.kc_lt
  · exact hI.call_lt
  · exact hI.thunk_kc_lt
  · exact hI.ret_val
  · exact hI.owner
  · exact hI.owner_ok

theorem Inv.setG {s : State} (hI : Inv s) (g : Group)
    (hkcs : ∀ key k, g.kcs key = some k → k < s.nheap)
    (hsf : ∀ key r, g.sf key = some r → r < s.ncalls) : Inv { s with g := g } := by
  constructor
  · exact hI.shape
  · exact hI.cshape
  · exact hI.kshape
  · exact hkcs
  · exact hsf
  · exact hI.kc_lt
  · exact hI.call_lt
  · exact hI.thunk_kc_lt
  · exact hI.ret_val
  · exact hI.owner
  · exact hI.owner_ok

theorem Inv.setCrashed {s : State} (hI : Inv s) (b : Bool) : Inv { s with crashed := b } := by
  constructor
  · exact hI.shape
  · exact hI.cshape
  · exact hI.kshape
  · exact hI.kcs_lt
  · exact hI.sf_lt
  · exact hI.kc_lt
  · exact hI.call_lt
  · exact hI.thunk_kc_lt
  · exact hI.ret_val
  · exact hI.owner
  · exact hI.owner_ok

theorem Inv.setCall {s : State} (hI : Inv s) (r : Nat) (x : SfCall) (hx : x.Shape)
    (hkc : x.kc = (s.calls r).kc) (hfn : x.fn = (s.calls r).fn)
    (hkey : x.key = (s.calls r).key) (howner : x.owner = (s.calls r).owner)
    (hdone : (s.calls r).done = true → x.done = true ∧ x.val = (s.calls r).val) :
    Inv (s.setCall r x) := by
  constructor
  · exact hI.shape
  · intro j
    by_cases hj : j = r
    · simpa [State.setCall, upd, hj] using hx
    · simpa [State.setCall, upd, hj] using hI.cshape j
  · exact hI.kshape
  · exact hI.kcs_lt
  · exact hI.sf_lt
  · exact hI.kc_lt
  · exact hI.call_lt
  · intro j hjl
    by_cases hj : j = r
    · subst hj
      simpa [State.setCall, upd, hkc] using hI.thunk_kc_lt j hjl
    · simpa [State.setCall, upd, hj] using hI.thunk_kc_lt j hjl
  · intro j v sh hret
    obtain ⟨q, hq, hd, hv⟩ := hI.ret_val j v sh hret
    refine ⟨q, hq, ?_⟩
    by_cases hj : q = r
    · subst hj
      have := hdone hd
      simp [State.setCall, upd, this, hv]
    · simp [State.setCall, upd, hj, hd, hv]
  · intro j q hl hc
    have := hI.owner j q hl hc
    by_cases hj : q = r
    · subst hj
      simpa [State.setCall, upd, hkc, hfn, hkey, howner] using this
    · simpa [State.setCall, upd, hj] using this
  · intro q hq
    have := hI.owner_ok q hq
    by_cases hj : q = r
    · subst hj
      simpa [State.setCall, upd, howner] using this
    · simpa [State.setCall, upd, hj] using this

theorem Inv.setLocal {s : State} (hI : Inv s) (i : Nat) (c : Caller)
    (hcall : c.call = (s.callers i).call) (hleader : c.leader = (s.callers i).leader)
    (hkc : c.kc = (s.callers i).kc) (hfn : c.fn = (s.callers i).fn)
    (hkey : c.key = (s.callers i).key) (hshape : c.Shape)
    (hret : ∀ v sh, c.ret = some (v, sh) →
      ∃ r, c.call = some r ∧ (s.calls r).done = true ∧ (s.calls r).val = v) :
    Inv (s.setCaller i c) := by
  apply hI.setCaller i c hshape
  · rw [hkc]
    exact hI.kc_lt i
  · rw [hcall]
    exact hI.call_lt i
  · exact hret
  · rw [hcall, hleader, hkc, hfn, hkey]
    intro r h1 h2
    exact hI.owner i r h1 h2
  · intro r hr he
    have := hI.owner_ok r hr
    rw [he] at this
    rw [hcall, hleader]
    exact this.2

theorem Inv.owner_ne {s : State} (hI : Inv s) {i : Nat} (h : (s.callers i).leader = false) :
    ∀ r, r < s.ncalls → (s.calls r).owner ≠ i := by
  intro r hr he
  have := (hI.owner_ok r hr).2.1
  rw [he, h] at this
  exact absurd this (by simp)

theorem Inv.allocKc {s : State} (hI : Inv s) (key : Key) :
    Inv { s with g := { s.g with kcs := upd s.g.kcs key (some s.nheap) },
                 heap := upd s.heap s.nheap keyContext.fresh, nheap := s.nheap + 1 } := by
  constructor
  · exact hI.shape
  · exact hI.cshape
  · intro j
    by_cases hj : j = s.nheap
    · simpa [upd, hj] using kshape_fresh
    · simpa [upd, hj] using hI.kshape j
  · intro q k
    by_cases hq : q = key
    · simp [upd, hq]
      omega
    · intro h
      simp [upd, hq] at h
      have := hI.kcs_lt q k h
      simp only
      omega
  · exact hI.sf_lt
  · intro j k h
    have := hI.kc_lt j k h
    simp only
    omega
  · exact hI.call_lt
  · intro r hr
    have := hI.thunk_kc_lt r hr
    simp only
    omega
  · exact hI.ret_val
  · exact hI.owner
  · exact hI.owner_ok

theorem Inv.addCaller {s : State} (hI : Inv s) (isChan : Bool) (key : Key) (fn : Bool → Res) :
    Inv (s.addCaller isChan key fn) := by
  have hlt : ∀ r, r < s.ncalls → (s.calls r).owner ≠ s.ncallers := by
    intro r hr
    have := (hI.owner_ok r hr).1
    omega
  constructor
  · intro j
    by_cases hj : j = s.ncallers
    · simpa [State.addCaller, upd, hj] using shape_fresh isChan key fn
    · simpa [State.addCaller, upd, hj] using hI.shape j
  · exact hI.cshape
  · exact hI.kshape
  · exact hI.kcs_lt
  · exact hI.sf_lt
  · intro j k
    by_cases hj : j = s.ncallers
    · simp [State.addCaller, upd, hj, Caller.fresh]
    · simpa [State.addCaller, upd, hj] using hI.kc_lt j k
  · intro j r
    by_cases hj : j = s.ncallers
    · simp [State.addCaller, upd, hj, Caller.fresh]
    · simpa [State.addCaller, upd, hj] using hI.call_lt j r
  · exact hI.thunk_kc_lt
  · intro j v sh
    by_cases hj : j = s.ncallers
    · simp [State.addCaller, upd, hj, Caller.fresh]
    · simpa [State.addCaller, upd, hj] using hI.ret_val j v sh
  · intro j r
    by_cases hj : j = s.ncallers
    · simp [State.addCaller, upd, hj, Caller.fresh]
    · simpa [State.addCaller, upd, hj] using hI.owner j r
  · intro r hr
    have h := hI.owner_ok r hr
    have hne := hlt r hr
    simp [State.addCaller, upd, hne, h]
    omega

theorem Inv.enterLeader {s : State} (hI : Inv s) (i k : Nat) (pc : PC)
    (hi : i < s.ncallers) (hpc : (s.callers i).pc = .sfEnter) (hk : (s.callers i).kc = some k)
    (hpc2 : pc = afterEnter (s.callers i).isChan) :
    Inv ({ s with g := { s.g with sf := upd s.g.sf (s.callers i).key (some s.ncalls) },
                  calls := upd s.calls s.ncalls
                    (SfCall.fresh (s.callers i).key k (s.callers i).fn i),
                  ncalls := s.ncalls + 1 }.setCaller i
          { s.callers i with call := some s.ncalls, leader := true, pc := pc }) := by
  have hs := hI.shape i
  simp [Caller.Shape, hpc, PC.rank] at hs
  obtain ⟨h1, h2, h3, h4, h5, h6, h7⟩ := hs
  have hret : (s.callers i).ret = none := h5
  have hne : ∀ j r, (s.callers j).call = some r → r ≠ s.ncalls := by
    intro j r h
    have := hI.call_lt j r h
    omega
  constructor
  · intro j
    by_cases hj : j = i
    · subst hj
      cases hc : (s.callers j).isChan <;>
        simp [State.setCaller, upd, Caller.Shape, hpc2, afterEnter, PC.rank, hc, *]
    · simpa [State.setCaller, upd, hj] using hI.shape j
  · intro r
    by_cases hr : r = s.ncalls
    · simpa [State.setCaller, upd, hr] using cshape_fresh _ _ _ _
    · simpa [State.setCaller, upd, hr] using hI.cshape r
  · exact hI.kshape
  · exact hI.kcs_lt
  · intro q r
    by_cases hq : q = (s.callers i).key
    · simp [State.setCaller, upd, hq]
      omega
    · intro h
      simp [State.setCaller, upd, hq] at h
      have := hI.sf_lt q r h
      simp [State.setCaller]
      omega
  · intro j q
    by_cases hj : j = i
    · subst hj
      simpa [State.setCaller, upd] using hI.kc_lt j q
    · simpa [State.setCaller, upd, hj] using hI.kc_lt j q
  · intro j q
    by_cases hj : j = i
    · subst hj
      simp [State.setCaller, upd]
      omega
    · intro h
      simp [State.setCaller, upd, hj] at h
      have := hI.call_lt j q h
      simp [State.setCaller]
      omega
  · intro r hr
    by_cases hq : r = s.ncalls
    · subst hq
      simpa [State.setCaller, upd, SfCall.fresh] using hI.kc_lt i k hk
    · have hr2 : r < s.ncalls := by
        simp [State.setCaller] at hr
        omega
      simpa [State.setCaller, upd, hq] using hI.thunk_kc_lt r hr2
  · intro j v sh
    by_cases hj : j = i
    · subst hj
      simp [State.setCaller, upd, hret]
    · intro h
      simp [State.setCaller, upd, hj] at h
      obtain ⟨q, hq, hd, hv⟩ := hI.ret_val j v sh h
      have := hne j q hq
      exact ⟨q, by simp [State.setCaller, upd, hj, hq], by simp [State.setCaller, upd, this, hd, hv]⟩
  · intro j q
    by_cases hj : j = i
    · subst hj
      simp [State.setCaller, upd]
      intro h
      subst h
      simp [SfCall.fresh, hk]
    · intro hl hc
      simp [State.setCaller, upd, hj] at hl hc
      have := hne j q hc
      simpa [State.setCaller, upd, hj, this] using hI.owner j q hl hc
  · intro r hr
    by_cases hq : r = s.ncalls
    · subst hq
      simp [State.setCaller, upd, SfCall.fresh, hi]
    · have hr2 : r < s.ncalls := by
        simp [State.setCaller] at hr
        omega
      have h := hI.owner_ok r hr2
      have hne2 : (s.calls r).owner ≠ i := by
        intro he
        rw [he] at h
        exact absurd h.2.2 (by simp [h4])
      simpa [State.setCaller, upd, hq, hne2] using h

theorem getKeyContext_cases {s s1 : State} {key : Key} {k : Nat}
    (h : getKeyContext s key = some (s1, k)) :
    (s.g.kcs key = some k ∧ s1 = s) ∨
    (s.g.kcs key = none ∧ s.g.once = true ∧ k = s.nheap ∧
      s1 = { s with g := { s.g with kcs := upd s.g.kcs key (some s.nheap) },
                    heap := upd s.heap s.nheap keyContext.fresh,
                    nheap := s.nheap + 1 }) := by
  unfold getKeyContext at h
  split at h
  · next k0 hk =>
    simp at h
    left
    rw [← h.1, ← h.2]
    exact ⟨hk, rfl⟩
  · next hk =>
    split at h
    · next ho =>
      simp at h
      right
      exact ⟨hk, ho, h.2.symm, h.1.symm⟩
    · simp at h

theorem inv_mainStep {s s' : State} {i : Nat} (hI : Inv s) (hi : i < s.ncallers)
    (h : mainStep s i = some s') : Inv s' := by
  have hs := hI.shape i
  have hret := hI.ret_val i
  simp only [Caller.Shape] at hs
  obtain ⟨h1, h2, h3, h4, h5, h6, h7, h8, h9⟩ := hs
  cases hpc : (s.callers i).pc <;> simp only [mainStep, hpc] at h <;>
    simp [hpc, PC.rank] at h1 h2 h3 h4 h5 h6 h7 h9
  · -- once
    simp at h
    subst h
    refine Inv.setLocal (hI.setG { s.g with once := true } hI.kcs_lt hI.sf_lt) i _ ?_ ?_ ?_ ?_ ?_ ?_ ?_ <;>
      simp_all [Caller.Shape, PC.rank]
  · -- getKc
    split at h
    · simp at h
    · next s1 k hg =>
      simp at h
      subst h
      rcases getKeyContext_cases hg with ⟨hk, rfl⟩ | ⟨hk, ho, rfl, rfl⟩
      · have hlt := hI.kcs_lt _ _ hk
        have hno := hI.owner_ne (h8 h4)
        refine Inv.setCaller hI i _ ?_ ?_ ?_ ?_ ?_ ?_ <;> simp_all [Caller.Shape, PC.rank]
      · have hno := hI.owner_ne (h8 h4)
        refine Inv.setCaller (hI.allocKc _) i _ ?_ ?_ ?_ ?_ ?_ ?_ <;>
          simp_all [Caller.Shape, PC.rank]
  · -- add
    split at h
    · simp at h
    · next k hk =>
      simp at h
      subst h
      have hks := hI.kshape k
      refine Inv.setLocal (hI.setKc _ _ ?_) i _ ?_ ?_ ?_ ?_ ?_ ?_ ?_ <;>
        simp_all [Caller.Shape, PC.rank, State.setKc, keyContext.Shape]
  · -- spawn
    simp at h
    subst h
    refine Inv.setLocal hI i _ ?_ ?_ ?_ ?_ ?_ ?_ ?_ <;> simp_all [Caller.Shape, PC.rank]
  · -- sfEnter
    split at h
    · next r hr =>
      simp at h
      subst h
      have hlt := hI.sf_lt _ _ hr
      have hcs := hI.cshape r
      have hkc := hI.kc_lt i
      have hI1 : Inv (s.setCall r { s.calls r with dups := (s.calls r).dups + 1 }) := by
        refine hI.setCall r _ ?_ ?_ ?_ ?_ ?_ ?_ <;> simp_all [SfCall.Shape]
      have hno := @Inv.owner_ne _ hI1 i (h8 h4)
      cases hc : (s.callers i).isChan <;>
      refine Inv.setCaller hI1 i _ ?_ ?_ ?_ ?_ ?_ ?_ <;>
        simp_all [Caller.Shape, PC.rank, State.setCall, afterEnter]
    · split at h
      · simp at h
      · next k hk =>
        simp at h
        subst h
        exact hI.enterLeader i k _ hi hpc hk rfl
  · -- inSf
    split at h
    · simp at h
    · next r hr =>
      split at h
      · next hd =>
        simp at h
        subst h
        refine Inv.setLocal hI i _ ?_ ?_ ?_ ?_ ?_ ?_ ?_ <;> simp_all [Caller.Shape, PC.rank]
      · simp at h
  · -- deferCancel
    cases hc : (s.callers i).isChan <;> simp [hc] at h <;> subst h <;>
      refine Inv.setLocal hI i _ ?_ ?_ ?_ ?_ ?_ ?_ ?_ <;> simp_all [Caller.Shape, PC.rank]
  · -- recv
    split at h
    · simp at h
    · next r hr =>
      split at h
      · next hd =>
        simp at h
        subst h
        refine Inv.setLocal hI i _ ?_ ?_ ?_ ?_ ?_ ?_ ?_ <;> simp_all [Caller.Shape, PC.rank]
      · simp at h
  · -- returned
    simp at h

theorem inv_wrapperStep {s s' : State} {r : Nat} (hI : Inv s) (hr : r < s.ncalls)
    (h : wrapperStep s r = some s') : Inv s' := by
  have hs := hI.cshape r
  simp only [SfCall.Shape] at hs
  obtain ⟨h1, h2, h3, h4⟩ := hs
  cases hpc : (s.calls r).wpc <;> simp only [wrapperStep, hpc] at h <;>
    simp [hpc, WPC.rank] at h1 h2 h3
  · -- fnCall
    simp at h
    subst h
    refine hI.setCall r _ ?_ ?_ ?_ ?_ ?_ ?_ <;> simp_all [SfCall.Shape, WPC.rank]
  · -- fnRunning
    simp at h
    subst h
    refine hI.setCall r _ ?_ ?_ ?_ ?_ ?_ ?_ <;> simp_all [SfCall.Shape, WPC.rank]
  · -- delete
    simp at h
    subst h
    have hg : Inv (deleteKeyContext s (s.calls r).key) := by
      refine hI.setG _ ?_ hI.sf_lt
      intro key k hk
      by_cases hq : key = (s.calls r).key
      · simp [upd, hq] at hk
      · simp [upd, hq] at hk
        exact hI.kcs_lt key k hk
    refine Inv.setCall hg r _ ?_ ?_ ?_ ?_ ?_ ?_ <;>
      simp_all [SfCall.Shape, WPC.rank, deleteKeyContext]
  · -- kcCancel
    simp at h
    subst h
    have hks := hI.kshape (s.calls r).kc
    refine Inv.setCall (hI.setKc _ _ ?_) r _ ?_ ?_ ?_ ?_ ?_ ?_ <;>
      simp_all [SfCall.Shape, WPC.rank, State.setKc, keyContext.Shape]
  · -- sfFinish
    split at h
    · simp at h
    · next b hb =>
      simp at h
      subst h
      have hg : Inv { s with g := { s.g with sf := sfRelease s.g.sf (s.calls r).key r } } := by
        refine hI.setG _ hI.kcs_lt ?_
        intro key q hq
        simp only [sfRelease] at hq
        split at hq
        · by_cases hk : key = (s.calls r).key
          · simp [upd, hk] at hq
          · simp [upd, hk] at hq
            exact hI.sf_lt key q hq
        · exact hI.sf_lt key q hq
      refine Inv.setCall hg r _ ?_ ?_ ?_ ?_ ?_ ?_ <;> simp_all [SfCall.Shape, WPC.rank]
  · -- finished
    exact absurd h (by simp)

theorem inv_watcherStep {s s' : State} {i : Nat} (hI : Inv s)
    (h : watcherStep s i = some s') : Inv s' := by
  have hs := hI.shape i
  have hret := hI.ret_val i
  unfold watcherStep at h
  simp only at h
  split at h
  · next k hw hk =>
    split at h
    · next hc =>
      simp at h
      subst h
      have hks := hI.kshape k
      simp at hc
      have hx : (s.heap k).wgDone.Shape := by
        simp only [keyContext.Shape, keyContext.wgDone] at hks ⊢
        constructor
        · intro hf
          split at hf
          · exact absurd hf (by simp)
          · exact hks.1 hf
        · intro hb
          split at hb
          · exact absurd hb (by simp)
          · next hn =>
            have := hks.2 hb
            have h1 : (s.heap k).counter ≠ 1 := fun h1 => hn ⟨h1, hb⟩
            show 0 < (s.heap k).counter - 1
            omega
      refine Inv.setLocal (hI.setKc _ _ hx) i _ ?_ ?_ ?_ ?_ ?_ ?_ ?_ <;>
        simp_all [Caller.Shape, State.setKc]
    · simp at h
  · simp at h

theorem inv_reaperStep {s s' : State} {k : Nat} (hI : Inv s)
    (h : reaperStep s k = some s') : Inv s' := by
  have hks := hI.kshape k
  unfold reaperStep at h
  split at h
  · split at h
    · simp at h
      subst h
      refine hI.setKc _ _ ?_
      simp_all [keyContext.Shape]
    · simp at h
      subst h
      refine hI.setKc _ _ ?_
      simp_all [keyContext.Shape]
      omega
  · simp at h
  · split at h
    · simp at h
      subst h
      refine hI.setKc _ _ ?_
      simp_all [keyContext.Shape]
    · simp at h
      subst h
      exact hI.setCrashed true
  · simp at h
    subst h
    refine hI.setKc _ _ ?_
    simp_all [keyContext.Shape]
  · simp at h

theorem step_live {s s' : State} {a : Action} (h : step s a = some s') :
    s.crashed = false ∧ stepLive s a = some s' := by
  unfold step at h
  split at h
  · simp at h
  · next hc => exact ⟨by simpa using hc, h⟩

theorem inv_step {s s' : State} {a : Action} (hI : Inv s) (h0 : step s a = some s') :
    Inv s' := by
  have h := (step_live h0).2
  cases a with
  | Do key fn =>
    simp [stepLive] at h
    subst h
    exact hI.addCaller _ _ _
  | DoChan key fn =>
    simp [stepLive] at h
    subst h
    exact hI.addCaller _ _ _
  | Forget key =>
    simp [stepLive] at h
    subst h
    refine hI.setG _ hI.kcs_lt ?_
    intro q r hq
    by_cases hk : q = key
    · simp [upd, hk] at hq
    · simp [upd, hk] at hq
      exact hI.sf_lt q r hq
  | cancel i =>
    simp only [stepLive] at h
    split at h
    · simp at h
      subst h
      have hs := hI.shape i
      have hret := hI.ret_val i
      refine Inv.setLocal hI i _ ?_ ?_ ?_ ?_ ?_ ?_ ?_ <;> simp_all [Caller.Shape]
    · simp at h
  | main i =>
    simp only [stepLive] at h
    split at h
    · next hi => exact inv_mainStep hI hi h
    · simp at h
  | wrapper r =>
    simp only [stepLive] at h
    split at h
    · next hr => exact inv_wrapperStep hI hr h
    · simp at h
  | watcher i =>
    simp only [stepLive] at h
    split at h
    · exact inv_watcherStep hI h
    · simp at h
  | reaper k =>
    simp only [stepLive] at h
    split at h
    · exact inv_reaperStep hI h
    · simp at h

theorem inv_init : Inv init := by
  constructor <;> simp [init, Caller.fresh]
  · exact shape_fresh false "" _
  · exact cshape_fresh _ _ _ _
  · exact kshape_fresh

theorem inv_run {tr : List Action} {s s' : State} (hI : Inv s) (h : run s tr = some s') :
    Inv s' := by
  induction tr generalizing s with
  | nil =>
    simp [run] at h
    exact h ▸ hI
  | cons a tr ih =>
    simp only [run] at h
    cases hs : step s a with
    | none => simp [hs] at h
    | some s1 =>
      simp [hs] at h
      exact ih (inv_step hI hs) h

theorem inv_reachable {s : State} (h : Reachable s) : Inv s := by
  obtain ⟨tr, htr⟩ := h
  exact inv_run inv_init htr

theorem trans_of_mainStep {s s' : State} {i : Nat} (hi : i < s.ncallers)
    (h : mainStep s i = some s') : Trans s s' := by
  cases hpc : (s.callers i).pc <;> simp only [mainStep, hpc] at h
  · simp at h
    subst h
    exact .once i hi hpc
  · split at h
    · simp at h
    · next s1 k hg =>
      simp at h
      subst h
      rcases getKeyContext_cases hg with ⟨hk, rfl⟩ | ⟨hk, ho, rfl, rfl⟩
      · exact .getKcOld i k hi hpc hk
      · exact .getKcNew i hi hpc hk ho
  · split at h
    · simp at h
    · next k hk =>
      simp at h
      subst h
      exact .add i k hi hpc hk
  · simp at h
    subst h
    exact .spawn i hi hpc
  · split at h
    · next r hr =>
      simp at h
      subst h
      exact .enterFollower i r hi hpc hr
    · next hr =>
      split at h
      · simp at h
      · next k hk =>
        simp at h
        subst h
        exact .enterLeader i k hi hpc hr hk
  · split at h
    · simp at h
    · next r hr =>
      split at h
      · next hd =>
        injection h with h
        subst h
        exact .inSf i r hi hpc hr hd
      · simp at h
  · simp at h
    subst h
    exact .deferCancel i hi hpc
  · split at h
    · simp at h
    · next r hr =>
      split at h
      · next hd =>
        simp at h
        subst h
        exact .recv i r hi hpc hr hd
      · simp at h
  · simp at h

theorem trans_of_wrapperStep {s s' : State} {r : Nat} (hr : r < s.ncalls)
    (h : wrapperStep s r = some s') : Trans s s' := by
  cases hpc : (s.calls r).wpc <;> simp only [wrapperStep, hpc] at h
  · simp at h
    subst h
    exact .fnCall r hr hpc
  · simp at h
    subst h
    exact .fnReturn r hr hpc
  · simp at h
    subst h
    exact .delete r hr hpc
  · simp at h
    subst h
    exact .kcCancel r hr hpc
  · split at h
    · simp at h
    · next b hb =>
      simp at h
      subst h
      exact .sfFinish r b hr hpc hb
  · exact absurd h (by simp)

theorem trans_of_step {s s' : State} {a : Action} (h0 : step s a = some s') : Trans s s' := by
  have h := (step_live h0).2
  cases a with
  | Do key fn =>
    simp [stepLive] at h
    subst h
    exact .addCaller _ _ _
  | DoChan key fn =>
    simp [stepLive] at h
    subst h
    exact .addCaller _ _ _
  | Forget key =>
    simp [stepLive] at h
    subst h
    exact .forget _
  | cancel i =>
    simp only [stepLive] at h
    split at h
    · next hi =>
      simp at h
      subst h
      exact .cancel i hi
    · simp at h
  | main i =>
    simp only [stepLive] at h
    split at h
    · next hi => exact trans_of_mainStep hi h
    · simp at h
  | wrapper r =>
    simp only [stepLive] at h
    split at h
    · next hr => exact trans_of_wrapperStep hr h
    · simp at h
  | watcher i =>
    simp only [stepLive] at h
    split at h
    · next hi =>
      unfold watcherStep at h
      simp only at h
      split at h
      · next k hw hk =>
        split at h
        · next hc =>
          simp at h
          subst h
          simp at hc
          exact .watcher i k hi hw hk hc.1 hc.2
        · simp at h
      · simp at h
    · simp at h
  | reaper k =>
    simp only [stepLive] at h
    split at h
    · next hk =>
      unfold reaperStep at h
      split at h
      · next hr =>
        split at h
        · next hz =>
          simp at h
          subst h
          exact .reaperWake k hk hr hz
        · next hz =>
          simp at h
          subst h
          exact .reaperBlock k hk hr hz
      · simp at h
      · next hr =>
        split at h
        · next hz =>
          simp at h
          subst h
          exact .reaperResume k hk hr hz
        · next hz =>
          simp at h
          subst h
          exact .reaperPanic k hk hr hz
      · next hr =>
        simp at h
        subst h
        exact .reaperCancel k hk hr
      · simp at h
    · simp at h

theorem trans_heap {s s' : State} (h : Trans s s') (k : Nat) (hk : k < s.nheap) :
    k < s'.nheap ∧ ((s.heap k).cancelled = true → (s'.heap k).cancelled = true) := by
  cases h <;> simp [State.addCaller, Forget, State.setCaller, State.setKc, State.setCall,
    deleteKeyContext, keyContext.wgDone, upd, hk] <;> (try split) <;> simp_all <;> omega

theorem trans_call {s s' : State} (h : Trans s s') (r : Nat) (hr : r < s.ncalls) :
    r < s'.ncalls ∧ (s'.calls r).kc = (s.calls r).kc ∧ (s'.calls r).fn = (s.calls r).fn ∧
      (s'.calls r).key = (s.calls r).key ∧ (s'.calls r).owner = (s.calls r).owner ∧
      (∀ b, (s'.calls r).observed = some b →
        (s.calls r).observed = some b ∨
          ((s.calls r).wpc = .fnRunning ∧ b = (s.heap (s.calls r).kc).cancelled)) := by
  cases h <;> simp [State.addCaller, Forget, State.setCaller, State.setKc, State.setCall,
    deleteKeyContext, keyContext.wgDone, upd, hr] <;> (try split) <;> simp_all <;> omega

theorem trans_caller {s s' : State} (h : Trans s s') (hI : Inv s) (i : Nat)
    (hi : i < s.ncallers) :
    i < s'.ncallers ∧ (s'.callers i).fn = (s.callers i).fn ∧
      (s'.callers i).key = (s.callers i).key ∧ (s'.callers i).isChan = (s.callers i).isChan ∧
      (∀ r, (s.callers i).call = some r →
        (s'.callers i).call = some r ∧ (s'.callers i).leader = (s.callers i).leader) := by
  have hs := hI.shape i
  simp only [Caller.Shape] at hs
  cases h <;> simp [State.addCaller, Forget, State.setCaller, State.setKc, State.setCall,
    deleteKeyContext, keyContext.wgDone, upd, hi] <;> (try split) <;> simp_all [PC.rank] <;> omega

theorem sum_upd (f : Nat → Caller) (F : Caller → Nat) (n i : Nat) (hi : i < n) (c : Caller) :
    (Finset.range n).sum (fun j => F (upd f i c j)) + F (f i) =
      (Finset.range n).sum (fun j => F (f j)) + F c := by
  have hm : i ∈ Finset.range n := Finset.mem_range.2 hi
  have h1 := Finset.add_sum_erase (Finset.range n) (fun j => F (upd f i c j)) hm
  have h2 := Finset.add_sum_erase (Finset.range n) (fun j => F (f j)) hm
  have h3 : ((Finset.range n).erase i).sum (fun j => F (upd f i c j)) =
      ((Finset.range n).erase i).sum (fun j => F (f j)) := by
    apply Finset.sum_congr rfl
    intro j hj
    simp [upd, Finset.ne_of_mem_erase hj]
  rw [h3] at h1
  have e : upd f i c i = c := by simp [upd]
  simp only [e] at h1
  simp only [] at h1 h2 ⊢
  omega

theorem countHolders_upd (f : Nat → Caller) (n i : Nat) (c : Caller) (hi : i < n) (k : Nat) :
    countHolders (upd f i c) n k + (f i).weight k = countHolders f n k + c.weight k :=
  sum_upd f (fun x => x.weight k) n i hi c

theorem weight_le_countHolders (f : Nat → Caller) (n i : Nat) (hi : i < n) (k : Nat) :
    (f i).weight k ≤ countHolders f n k :=
  @Finset.single_le_sum _ _ _ (fun j => (f j).weight k) _ (fun _ _ => Nat.zero_le _) _
    (Finset.mem_range.2 hi)

theorem countHolders_upd_eq (f : Nat → Caller) (n i : Nat) (c : Caller) (hi : i < n) (k : Nat) :
    countHolders (upd f i c) n k = countHolders f n k + c.weight k - (f i).weight k := by
  have := countHolders_upd f n i c hi k
  omega

theorem countHolders_add (f : Nat → Caller) (n : Nat) (isChan : Bool) (key : Key)
    (fn : Bool → Res) (k : Nat) :
    countHolders (upd f n (Caller.fresh isChan key fn)) (n + 1) k = countHolders f n k := by
  unfold countHolders
  simp only [Finset.sum_range_succ]
  have h3 : (Finset.range n).sum
      (fun j => (upd f n (Caller.fresh isChan key fn) j).weight k) =
      (Finset.range n).sum (fun j => (f j).weight k) := by
    apply Finset.sum_congr rfl
    intro j hj
    have : j ≠ n := by
      have := Finset.mem_range.1 hj
      omega
    simp [upd, this]
  rw [h3]
  simp [upd, Caller.weight, Caller.holds, Caller.fresh]

theorem participants_zero (s : State) (k : Nat)
    (h : ∀ i, i < s.ncallers → (s.callers i).holds k = false) : participants s k = 0 := by
  unfold participants countHolders
  apply Finset.sum_eq_zero
  intro i hi
  simp [Caller.weight, h i (Finset.mem_range.1 hi)]

theorem count_trans {s s' : State} (h : Trans s s') (hI : Inv s) (hC : CountInv s) :
    CountInv s' := by
  intro q
  have hq := hC q
  simp only [participants] at hq
  cases h with
  | addCaller isChan key fn =>
    simp only [participants, State.addCaller, countHolders_add]
    exact hq
  | forget key => exact hq
  | cancel i hi =>
    have hle := weight_le_countHolders s.callers s.ncallers i hi q
    have hs := hI.shape i
    simp only [participants, State.setCaller, State.setCall, countHolders_upd_eq _ _ _ _ hi]
    simp [Caller.Shape, PC.rank] at hs
    simp [Caller.weight, Caller.holds, hs] at hle ⊢
    omega
  | once i hi hpc =>
    have hle := weight_le_countHolders s.callers s.ncallers i hi q
    have hs := hI.shape i
    simp only [participants, State.setCaller, State.setCall, countHolders_upd_eq _ _ _ _ hi]
    simp [Caller.Shape, hpc, PC.rank] at hs
    simp [Caller.weight, Caller.holds, hs] at hle ⊢
    omega
  | getKcOld i k hi hpc hk =>
    have hle := weight_le_countHolders s.callers s.ncallers i hi q
    have hs := hI.shape i
    simp only [participants, State.setCaller, State.setCall, countHolders_upd_eq _ _ _ _ hi]
    simp [Caller.Shape, hpc, PC.rank] at hs
    simp [Caller.weight, Caller.holds, hs] at hle ⊢
    omega
  | spawn i hi hpc =>
    have hle := weight_le_countHolders s.callers s.ncallers i hi q
    have hs := hI.shape i
    simp only [participants, State.setCaller, State.setCall, countHolders_upd_eq _ _ _ _ hi]
    simp [Caller.Shape, hpc, PC.rank] at hs
    simp [Caller.weight, Caller.holds, hs] at hle ⊢
    omega
  | enterFollower i r hi hpc hr =>
    have hle := weight_le_countHolders s.callers s.ncallers i hi q
    have hs := hI.shape i
    simp only [participants, State.setCaller, State.setCall, countHolders_upd_eq _ _ _ _ hi]
    simp [Caller.Shape, hpc, PC.rank] at hs
    simp [Caller.weight, Caller.holds, hs] at hle ⊢
    omega
  | enterLeader i k hi hpc hr hk =>
    have hle := weight_le_countHolders s.callers s.ncallers i hi q
    have hs := hI.shape i
    simp only [participants, State.setCaller, State.setCall, countHolders_upd_eq _ _ _ _ hi]
    simp [Caller.Shape, hpc, PC.rank] at hs
    simp [Caller.weight, Caller.holds, hs] at hle ⊢
    omega
  | inSf i r hi hpc hc hd =>
    have hle := weight_le_countHolders s.callers s.ncallers i hi q
    have hs := hI.shape i
    simp only [participants, State.setCaller, State.setCall, countHolders_upd_eq _ _ _ _ hi]
    simp [Caller.Shape, hpc, PC.rank] at hs
    simp [Caller.weight, Caller.holds, hs] at hle ⊢
    omega
  | deferCancel i hi hpc =>
    have hle := weight_le_countHolders s.callers s.ncallers i hi q
    have hs := hI.shape i
    simp only [participants, State.setCaller, State.setCall, countHolders_upd_eq _ _ _ _ hi]
    simp [Caller.Shape, hpc, PC.rank] at hs
    simp [Caller.weight, Caller.holds, hs] at hle ⊢
    omega
  | recv i r hi hpc hc hd =>
    have hle := weight_le_countHolders s.callers s.ncallers i hi q
    have hs := hI.shape i
    simp only [participants, State.setCaller, State.setCall, countHolders_upd_eq _ _ _ _ hi]
    simp [Caller.Shape, hpc, PC.rank] at hs
    simp [Caller.weight, Caller.holds, hs] at hle ⊢
    omega
  | getKcNew i hi hpc hk ho =>
    have hle := weight_le_countHolders s.callers s.ncallers i hi q
    have hs := hI.shape i
    simp only [participants, State.setCaller, countHolders_upd_eq _ _ _ _ hi]
    simp [Caller.Shape, hpc, PC.rank] at hs
    simp [Caller.weight, Caller.holds, hs] at hle ⊢
    by_cases hqn : q = s.nheap
    · subst hqn
      have hz : participants s s.nheap = 0 := by
        apply participants_zero
        intro j hj
        have := hI.kc_lt j s.nheap
        simp [Caller.holds]
        intro hh
        exact absurd (this hh) (by omega)
      simp only [participants] at hz
      simp [upd, keyContext.fresh, hz]
    · simp [upd, hqn]
      omega
  | add i k hi hpc hk =>
    have hle := weight_le_countHolders s.callers s.ncallers i hi q
    have hs := hI.shape i
    simp only [participants, State.setCaller, State.setKc, countHolders_upd_eq _ _ _ _ hi]
    simp [Caller.Shape, hpc, PC.rank] at hs
    simp [Caller.weight, Caller.holds, hs, hk] at hle ⊢
    by_cases hqk : q = k
    · subst hqk
      simp [upd]
      omega
    · have : ¬ k = q := fun h => hqk h.symm
      simp [upd, hqk, this]
      omega
  | fnCall r hr hw => exact hq
  | fnReturn r hr hw => exact hq
  | delete r hr hw => exact hq
  | kcCancel r hr hw =>
    simp only [participants, State.setCall, State.setKc]
    by_cases hqk : q = (s.calls r).kc
    · simp [upd, hqk]
      rw [← hqk]
      exact hq
    · simpa [upd, hqk] using hq
  | sfFinish r b hr hw hb => exact hq
  | watcher i k hi hw hk hc hpos =>
    have hle := weight_le_countHolders s.callers s.ncallers i hi q
    have hs := hI.shape i
    simp only [participants, State.setCaller, State.setKc, countHolders_upd_eq _ _ _ _ hi]
    simp [Caller.Shape, hw] at hs
    have hreg : (s.callers i).registered = true := by
      rw [hs.2.1]
      omega
    simp [Caller.weight, Caller.holds, hk, hw, hreg] at hle ⊢
    by_cases hqk : q = k
    · subst hqk
      simp [upd, keyContext.wgDone] at hle ⊢
      omega
    · have : ¬ k = q := fun h => hqk h.symm
      simp [upd, hqk, this] at hle ⊢
      omega
  | reaperWake k hk hr hz =>
    simp only [participants, State.setKc]
    by_cases hqk : q = k
    · simp [upd, hqk]
      rw [← hqk]
      exact hq
    · simpa [upd, hqk] using hq
  | reaperBlock k hk hr hz =>
    simp only [participants, State.setKc]
    by_cases hqk : q = k
    · simp [upd, hqk]
      rw [← hqk]
      exact hq
    · simpa [upd, hqk] using hq
  | reaperResume k hk hr hz =>
    simp only [participants, State.setKc]
    by_cases hqk : q = k
    · simp [upd, hqk]
      rw [← hqk]
      exact hq
    · simpa [upd, hqk] using hq
  | reaperPanic k hk hr hz => exact hq
  | reaperCancel k hk hr =>
    simp only [participants, State.setKc]
    by_cases hqk : q = k
    · simp [upd, hqk]
      rw [← hqk]
      exact hq
    · simpa [upd, hqk] using hq

theorem count_init : CountInv init := by
  intro k
  simp [participants, countHolders, init, keyContext.fresh]

theorem count_run {tr : List Action} {s s' : State} (hI : Inv s) (hC : CountInv s)
    (h : run s tr = some s') : CountInv s' := by
  induction tr generalizing s with
  | nil =>
    simp [run] at h
    exact h ▸ hC
  | cons a tr ih =>
    simp only [run] at h
    cases hs : step s a with
    | none => simp [hs] at h
    | some s1 =>
      simp [hs] at h
      exact ih (inv_step hI hs) (count_trans (trans_of_step hs) hI hC) h

theorem count_reachable {s : State} (h : Reachable s) : CountInv s := by
  obtain ⟨tr, htr⟩ := h
  exact count_run inv_init count_init htr

theorem run_append (s : State) (t1 t2 : List Action) :
    run s (t1 ++ t2) = (run s t1).bind (fun s1 => run s1 t2) := by
  induction t1 generalizing s with
  | nil => simp [run]
  | cons a t ih =>
    simp only [List.cons_append, run]
    cases step s a with
    | none => simp
    | some s1 => simp [ih]

theorem reachable_run {s s' : State} {tr : List Action} (h : Reachable s)
    (h2 : run s tr = some s') : Reachable s' := by
  obtain ⟨t, ht⟩ := h
  exact ⟨t ++ tr, by rw [run_append, ht]; simpa using h2⟩

/-- Once the shared context of record `r` is cancelled while its `fn` has not
returned a value computed without seeing the cancellation, this stays so. -/
theorem cancelled_stable {tr : List Action} {s s' : State} {r : Nat}
    (h : run s tr = some s') (hr : r < s.ncalls) (hk : (s.calls r).kc < s.nheap)
    (hc : (s.heap (s.calls r).kc).cancelled = true)
    (ho : (s.calls r).observed ≠ some false) :
    r < s'.ncalls ∧ (s'.calls r).kc = (s.calls r).kc ∧ (s'.calls r).fn = (s.calls r).fn ∧
      (s'.heap (s.calls r).kc).cancelled = true ∧ (s'.calls r).observed ≠ some false := by
  induction tr generalizing s with
  | nil =>
    simp [run] at h
    subst h
    exact ⟨hr, rfl, rfl, hc, ho⟩
  | cons a tr ih =>
    simp only [run] at h
    cases hs : step s a with
    | none => simp [hs] at h
    | some s1 =>
      simp [hs] at h
      have ht := trans_of_step hs
      obtain ⟨hr1, hkc1, hfn1, _, _, hob1⟩ := trans_call ht r hr
      obtain ⟨hk1, hc1⟩ := trans_heap ht _ hk
      have ho1 : (s1.calls r).observed ≠ some false := by
        intro hcon
        rcases hob1 false hcon with h1 | ⟨_, h2⟩
        · exact ho h1
        · rw [hc] at h2
          exact absurd h2 (by simp)
      have := @ih s1 h hr1 (by rw [hkc1]; exact hk1) (by rw [hkc1]; exact hc1 hc) ho1
      rw [hkc1, hfn1] at this
      exact this

theorem run_stable {tr : List Action} {s s' : State} (h : run s tr = some s') (hI : Inv s) :
    (∀ i, i < s.ncallers → i < s'.ncallers ∧ (s'.callers i).fn = (s.callers i).fn ∧
      ∀ r, (s.callers i).call = some r →
        (s'.callers i).call = some r ∧ (s'.callers i).leader = (s.callers i).leader) ∧
    (∀ r, r < s.ncalls → r < s'.ncalls ∧ (s'.calls r).fn = (s.calls r).fn ∧
      (s'.calls r).owner = (s.calls r).owner) := by
  induction tr generalizing s with
  | nil =>
    simp [run] at h
    subst h
    exact ⟨fun i hi => ⟨hi, rfl, fun r hr => ⟨hr, rfl⟩⟩, fun r hr => ⟨hr, rfl, rfl⟩⟩
  | cons a tr ih =>
    simp only [run] at h
    cases hs : step s a with
    | none => simp [hs] at h
    | some s1 =>
      simp [hs] at h
      have ht := trans_of_step hs
      obtain ⟨ih1, ih2⟩ := ih h (inv_step hI hs)
      constructor
      · intro i hi
        obtain ⟨hi1, hfn1, _, _, hc1⟩ := trans_caller ht hI i hi
        obtain ⟨hi2, hfn2, hc2⟩ := ih1 i hi1
        refine ⟨hi2, by rw [hfn2, hfn1], ?_⟩
        intro r hr
        obtain ⟨hc1a, hc1b⟩ := hc1 r hr
        obtain ⟨hc2a, hc2b⟩ := hc2 r hc1a
        exact ⟨hc2a, by rw [hc2b, hc1b]⟩
      · intro r hr
        obtain ⟨hr1, _, hfn1, _, ho1, _⟩ := trans_call ht r hr
        obtain ⟨hr2, hfn2, ho2⟩ := ih2 r hr1
        exact ⟨hr2, by rw [hfn2, hfn1], by rw [ho2, ho1]⟩

theorem run_kc_stable {tr : List Action} {s s' : State} (h : run s tr = some s') (r : Nat)
    (hr : r < s.ncalls) : (s'.calls r).kc = (s.calls r).kc := by
  induction tr generalizing s with
  | nil =>
    simp [run] at h
    subst h
    rfl
  | cons a tr ih =>
    simp only [run] at h
    cases hs : step s a with
    | none => simp [hs] at h
    | some s1 =>
      simp [hs] at h
      obtain ⟨hr1, hkc1, _⟩ := trans_call (trans_of_step hs) r hr
      rw [ih h hr1, hkc1]

theorem run_heap_lt {tr : List Action} {s s' : State} (h : run s tr = some s') (k : Nat)
    (hk : k < s.nheap) : k < s'.nheap := by
  induction tr generalizing s with
  | nil =>
    simp [run] at h
    subst h
    exact hk
  | cons a tr ih =>
    simp only [run] at h
    cases hs : step s a with
    | none => simp [hs] at h
    | some s1 =>
      simp [hs] at h
      exact ih h (trans_heap (trans_of_step hs) k hk).1

/-- A thunk whose `fn` is running can always run to completion: `fn` returns
what it computes from the state of its context, the two deferred calls run,
and the deduplicator stores the result and marks the record done. -/
theorem wrapper_completes (s : State) (hlive : s.crashed = false) (r : Nat)
    (hr : r < s.ncalls) (hw : (s.calls r).wpc = .fnRunning) :
    ∃ s3, run s [.wrapper r, .wrapper r, .wrapper r, .wrapper r] = some s3 ∧
      (s3.calls r).done = true ∧
      (s3.calls r).val = (s.calls r).fn (s.heap (s.calls r).kc).cancelled ∧
      s3.callers = s.callers ∧ s3.ncallers = s.ncallers ∧ s3.crashed = false := by
  simp [run, step, stepLive, hlive, wrapperStep, hr, hw, State.setCall, State.setKc,
    deleteKeyContext, upd]

/-- With the counter at zero the reaper gets to cancel the context: at most two
of its steps are left, they are enabled, none of them panics, and they touch
nothing but the cancellation flag and the reaper itself. -/
theorem reaper_cancels (s : State) (hI : Inv s) (hlive : s.crashed = false) (k : Nat)
    (hk : k < s.nheap) (hz : (s.heap k).counter = 0) :
    ∃ m s1, m ≤ 2 ∧ run s (List.replicate m (.reaper k)) = some s1 ∧
      (s1.heap k).cancelled = true ∧ s1.calls = s.calls ∧ s1.ncalls = s.ncalls ∧
      s1.callers = s.callers ∧ s1.ncallers = s.ncallers ∧ s1.nheap = s.nheap ∧
      s1.crashed = false := by
  cases hr : (s.heap k).reaper with
  | waiting =>
    refine ⟨2, ?_⟩
    simp [List.replicate, run, step, stepLive, hlive, reaperStep, hk, hr, hz, State.setKc, upd]
  | blocked =>
    have := (hI.kshape k).2 hr
    omega
  | released =>
    refine ⟨2, ?_⟩
    simp [List.replicate, run, step, stepLive, hlive, reaperStep, hk, hr, hz, State.setKc, upd]
  | woke =>
    refine ⟨1, ?_⟩
    simp [List.replicate, run, step, stepLive, hlive, reaperStep, hk, hr, State.setKc, upd]
  | finished =>
    refine ⟨0, s, by omega, ?_, ?_⟩
    · simp [run]
    · have := (hI.kshape k).1 hr
      simp [this, hlive]

/-- A `Do` caller attached to a record that is done gets out of the
deduplicator and returns, with the value and error stored in the record. -/
theorem do_caller_returns (s : State) (hI : Inv s) (hlive : s.crashed = false) (i r : Nat)
    (hi : i < s.ncallers) (hc : (s.callers i).call = some r)
    (hch : (s.callers i).isChan = false) (hd : (s.calls r).done = true)
    (hpc : (s.callers i).pc ≠ .returned) :
    ∃ m s4, m ≤ 2 ∧ run s (List.replicate m (.main i)) = some s4 ∧
      (s4.callers i).pc = .returned ∧ ∃ sh, (s4.callers i).ret = some ((s.calls r).val, sh) := by
  have hs := hI.shape i
  simp only [Caller.Shape] at hs
  obtain ⟨h1, h2, h3, h4, h5, h6, h7, h8, h9⟩ := hs
  cases hp : (s.callers i).pc <;> simp [hp, PC.rank, hc, hch] at h4 h5 h7 hpc
  · refine ⟨2, ?_⟩
    simp [List.replicate, run, step, stepLive, hlive, mainStep, hi, hp, hc, hd, hch,
      State.setCaller, upd]
    cases (s.callers i).leader <;> simp
    omega
  · refine ⟨1, ?_⟩
    cases hr : (s.callers i).ret with
    | none => exact absurd hr h5
    | some p =>
      obtain ⟨v, sh⟩ := p
      obtain ⟨q, hq, _, hv⟩ := hI.ret_val i v sh hr
      rw [hc] at hq
      injection hq with hq
      subst hq
      simp [List.replicate, run, step, stepLive, hlive, mainStep, hi, hp, hch,
        State.setCaller, upd, hr, hv]

/-- C7: `Forget(key)` is enabled in every state of a live process and changes
only the deduplicator's entry for `key`: the key-to-keyContext map `g.kcs` is
unchanged, every `keyContext` (its cancellation flag, its counter, its
reaper) is unchanged, as are the call records and the callers; the
deduplicator's table loses the entry of `key` and keeps every other entry. -/
theorem forget_frame (s : State) (key : Key) :
    stepLive s (.Forget key) = some (Forget s key) ∧
    step s (.Forget key) = (if s.crashed then none else some (Forget s key)) ∧
    (Forget s key).crashed = s.crashed ∧
    (Forget s key).g.kcs = s.g.kcs ∧ (Forget s key).g.once = s.g.once ∧
    (Forget s key).heap = s.heap ∧ (Forget s key).nheap = s.nheap ∧
    (Forget s key).calls = s.calls ∧ (Forget s key).ncalls = s.ncalls ∧
    (Forget s key).callers = s.callers ∧ (Forget s key).ncallers = s.ncallers ∧
    (Forget s key).g.sf key = none ∧
    ∀ q, q ≠ key → (Forget s key).g.sf q = s.g.sf q := by
  refine ⟨rfl, rfl, rfl, rfl, rfl, rfl, rfl, rfl, rfl, rfl, rfl, ?_, ?_⟩
  · simp [Forget, upd]
  · intro q hq
    simp [Forget, upd, hq]

/-- What the deduplicator does guarantee, in every reachable state and for
every record `r` (one in-flight execution for a key): `fn` has been invoked at
most once for `r`; every caller attached to `r` that has returned got the value and error
stored in `r`, which is what that one invocation of `fn` returned, so any two
of them got the same `(value, error)`; and a caller that reaches the
deduplicator while `r` is the in-flight record of its key is attached to `r`
as a follower without starting an execution of its own. -/
theorem record_shares_one_execution (s : State) (h : Reachable s) (r : Nat) :
    (s.calls r).runs ≤ 1 ∧
    (∀ i v sh, (s.callers i).call = some r → (s.callers i).ret = some (v, sh) →
      v = (s.calls r).val ∧ (s.calls r).runs = 1 ∧
        ∃ b, (s.calls r).observed = some b ∧ v = (s.calls r).fn b) ∧
    (∀ i j vi shi vj shj, (s.callers i).call = some r → (s.callers j).call = some r →
      (s.callers i).ret = some (vi, shi) → (s.callers j).ret = some (vj, shj) → vi = vj) ∧
    (∀ i, s.crashed = false → i < s.ncallers → (s.callers i).pc = .sfEnter →
      s.g.sf (s.callers i).key = some r →
      ∃ s', step s (.main i) = some s' ∧ (s'.callers i).call = some r ∧
        (s'.callers i).leader = false ∧ s'.ncalls = s.ncalls ∧
        (s'.calls r).runs = (s.calls r).runs ∧ (s'.calls r).wpc = (s.calls r).wpc) := by
  have hI := inv_reachable h
  have hcs := hI.cshape r
  simp only [SfCall.Shape] at hcs
  obtain ⟨h1, h2, h3, h4⟩ := hcs
  have hval : ∀ i v sh, (s.callers i).call = some r → (s.callers i).ret = some (v, sh) →
      v = (s.calls r).val ∧ (s.calls r).runs = 1 ∧
        ∃ b, (s.calls r).observed = some b ∧ v = (s.calls r).fn b := by
    intro i v sh hc hret
    obtain ⟨q, hq, hd, hv⟩ := hI.ret_val i v sh hret
    rw [hc] at hq
    injection hq with hq
    subst hq
    obtain ⟨b, hb, hvb⟩ := h4 hd
    have hfin := h1.1 hd
    refine ⟨hv.symm, ?_, b, hb, ?_⟩
    · rw [h2, hfin]
      simp
    · rw [← hv, hvb]
  refine ⟨?_, hval, ?_, ?_⟩
  · rw [h2]
    split <;> omega
  · intro i j vi shi vj shj hci hcj hri hrj
    rw [(hval i vi shi hci hri).1, (hval j vj shj hcj hrj).1]
  · intro i hlive hi hpc hsf
    simp [step, stepLive, hlive, hi, mainStep, hpc, hsf, State.setCaller, State.setCall, upd]

/-- C3 (amended): take a reachable state of a live process in which the `fn`
of record `r` is still running and every caller registered on its
`keyContext` has had its context cancelled and its watcher has run.  Then the
participant counter of that `keyContext` is zero, and the reaper's remaining
steps (at most two) are enabled, do not panic, and cancel the shared context
while `fn` is still running.  Moreover, along every schedule from that state:
once the shared context is cancelled while `fn` is still running, the thunk
can run to completion and stores `fn`'s result for a cancelled context; from
then on `fn` never returns having seen its context uncancelled, every caller
attached to `r` that has returned holds `fn`'s result for a cancelled
context, whose error is `context.Canceled` when `fn` returns its context's
error on cancellation, and, once the record is done, every `Do` caller
attached to `r` that has not yet returned does return (within its two
remaining statements) with that result. -/
theorem all_cancelled_cancels (s : State) (h : Reachable s) (hlive : s.crashed = false)
    (r : Nat) (hr : r < s.ncalls) (hrun : (s.calls r).wpc = .fnRunning)
    (herr : ((s.calls r).fn true).2 = some Err.canceled)
    (hall : ∀ j, j < s.ncallers → (s.callers j).kc = some (s.calls r).kc →
      (s.callers j).registered = true →
      (s.callers j).ctxCancelled = true ∧ (s.callers j).watcher = .fired) :
    (s.heap (s.calls r).kc).counter = 0 ∧
    (∃ m s1, m ≤ 2 ∧ run s (List.replicate m (.reaper (s.calls r).kc)) = some s1 ∧
      (s1.heap (s.calls r).kc).cancelled = true ∧ (s1.calls r).wpc = .fnRunning ∧
      s1.crashed = false) ∧
    ∀ tr s1, run s tr = some s1 → (s1.heap (s.calls r).kc).cancelled = true →
      (s1.calls r).wpc = .fnRunning → s1.crashed = false →
      (∃ s3, run s1 [.wrapper r, .wrapper r, .wrapper r, .wrapper r] = some s3 ∧
        (s3.calls r).done = true ∧ (s3.calls r).val = (s.calls r).fn true ∧
        s3.crashed = false) ∧
      ∀ tr2 s2, run s1 tr2 = some s2 →
        (s2.calls r).observed ≠ some false ∧
        (∀ i v sh, (s2.callers i).call = some r → (s2.callers i).ret = some (v, sh) →
          v = (s.calls r).fn true ∧ v.2 = some Err.canceled) ∧
        ((s2.calls r).done = true → s2.crashed = false →
          ∀ i, i < s2.ncallers → (s2.callers i).call = some r →
            (s2.callers i).isChan = false → (s2.callers i).pc ≠ .returned →
            ∃ m s4, m ≤ 2 ∧ run s2 (List.replicate m (.main i)) = some s4 ∧
              (s4.callers i).pc = .returned ∧
              ∃ sh, (s4.callers i).ret = some ((s.calls r).fn true, sh)) := by
  have hI := inv_reachable h
  have hC := count_reachable h
  have hk := hI.thunk_kc_lt r hr
  have hz : (s.heap (s.calls r).kc).counter = 0 := by
    rw [hC]
    apply participants_zero
    intro j hj
    by_cases h1 : (s.callers j).kc = some (s.calls r).kc
    · by_cases h2 : (s.callers j).registered = true
      · simp [Caller.holds, (hall j hj h1 h2).2]
      · simp [Caller.holds, h2]
    · simp [Caller.holds, h1]
  refine ⟨hz, ?_, ?_⟩
  · obtain ⟨m, s1, hm, hrun1, hc1, hcalls, _, _, _, _, hl1⟩ :=
      reaper_cancels s hI hlive _ hk hz
    exact ⟨m, s1, hm, hrun1, hc1, by rw [hcalls]; exact hrun, hl1⟩
  · intro tr s1 hrun1 hc1 hw1 hl1
    have hR1 : Reachable s1 := reachable_run h hrun1
    have hI1 := inv_reachable hR1
    obtain ⟨_, hst⟩ := run_stable hrun1 hI
    obtain ⟨hr1, hfn1, _⟩ := hst r hr
    have hkc1 : (s1.calls r).kc = (s.calls r).kc := run_kc_stable hrun1 r hr
    have hobs1 : (s1.calls r).observed ≠ some false := by
      have := hI1.cshape r
      simp [SfCall.Shape, hw1, WPC.rank] at this
      rw [this.2.2.1]
      simp
    constructor
    · obtain ⟨s3, h3, hd3, hv3, _, _, hl3⟩ := wrapper_completes s1 hl1 r hr1 hw1
      refine ⟨s3, h3, hd3, ?_, hl3⟩
      rw [hv3, hkc1, hc1, hfn1]
    · intro tr2 s2 h2
      obtain ⟨hr2, hkc2, hfn2, hc2, hobs2⟩ := cancelled_stable h2 hr1
        (by rw [hkc1]; exact (run_heap_lt hrun1 _ hk)) (by rw [hkc1]; exact hc1) hobs1
      have hI2 := inv_run hI1 h2
      have hcs := hI2.cshape r
      simp only [SfCall.Shape] at hcs
      have hval : (s2.calls r).done = true → (s2.calls r).val = (s.calls r).fn true := by
        intro hd
        obtain ⟨b, hb, hvb⟩ := hcs.2.2.2 hd
        have hbt : b = true := by
          cases b
          · exact absurd hb hobs2
          · rfl
        subst hbt
        rw [hvb, hfn2, hfn1]
      refine ⟨hobs2, ?_, ?_⟩
      · intro i v sh hcall hret
        obtain ⟨q, hq, hd, hv⟩ := hI2.ret_val i v sh hret
        rw [hcall] at hq
        injection hq with hq
        subst hq
        have hv' : v = (s.calls r).fn true := by rw [← hv, hval hd]
        exact ⟨hv', by rw [hv']; exact herr⟩
      · intro hd hl2 i hi hcall hch hpc
        obtain ⟨m, s4, hm, h4, hp4, sh, hret4⟩ :=
          do_caller_returns s2 hI2 hl2 i r hi hcall hch hd hpc
        exact ⟨m, s4, hm, h4, hp4, sh, by rw [hret4, hval hd]⟩

theorem ncallers_mainStep {s s' : State} {i : Nat}
    (h : mainStep s i = some s') : s'.ncallers = s.ncallers := by
  cases hpc : (s.callers i).pc <;> simp only [mainStep, hpc] at h
  · simp at h
    subst h
    rfl
  · split at h
    · simp at h
    · next s1 k hg =>
      simp at h
      subst h
      rcases getKeyContext_cases hg with ⟨hk, rfl⟩ | ⟨hk, ho, rfl, rfl⟩
      · rfl
      · rfl
  · split at h
    · simp at h
    · next k hk =>
      simp at h
      subst h
      rfl
  · simp at h
    subst h
    rfl
  · split at h
    · next r hr =>
      simp at h
      subst h
      rfl
    · next hr =>
      split at h
      · simp at h
      · next k hk =>
        simp at h
        subst h
        rfl
  · split at h
    · simp at h
    · next r hr =>
      split at h
      · next hd =>
        injection h with h
        subst h
        rfl
      · simp at h
  · simp at h
    subst h
    rfl
  · split at h
    · simp at h
    · next r hr =>
      split at h
      · next hd =>
        simp at h
        subst h
        rfl
      · simp at h
  · simp at h

theorem ncallers_wrapperStep {s s' : State} {r : Nat} (h : wrapperStep s r = some s') : s'.ncallers = s.ncallers := by
  cases hpc : (s.calls r).wpc <;> simp only [wrapperStep, hpc] at h
  · simp at h
    subst h
    rfl
  · simp at h
    subst h
    rfl
  · simp at h
    subst h
    rfl
  · simp at h
    subst h
    rfl
  · split at h
    · simp at h
    · next b hb =>
      simp at h
      subst h
      rfl
  · exact absurd h (by simp)

theorem ncallers_step {s s' : State} {a : Action} (h0 : step s a = some s')
    (hd : ∀ key fn, a ≠ .Do key fn)
    (hc : ∀ key fn, a ≠ .DoChan key fn) : s'.ncallers = s.ncallers := by
  have h := (step_live h0).2
  cases a with
  | Do key fn => exact absurd rfl (hd key fn)
  | DoChan key fn => exact absurd rfl (hc key fn)
  | Forget key =>
    simp [stepLive] at h
    subst h
    rfl
  | cancel i =>
    simp only [stepLive] at h
    split at h
    · next hi =>
      simp at h
      subst h
      rfl
    · simp at h
  | main i =>
    simp only [stepLive] at h
    split at h
    · exact ncallers_mainStep h
    · simp at h
  | wrapper r =>
    simp only [stepLive] at h
    split at h
    · exact ncallers_wrapperStep h
    · simp at h
  | watcher i =>
    simp only [stepLive] at h
    split at h
    · next hi =>
      unfold watcherStep at h
      simp only at h
      split at h
      · next k hw hk =>
        split at h
        · next hc =>
          simp at h
          subst h
          simp at hc
          rfl
        · simp at h
      · simp at h
    · simp at h
  | reaper k =>
    simp only [stepLive] at h
    split at h
    · next hk =>
      unfold reaperStep at h
      split at h
      · next hr =>
        split at h
        · next hz =>
          simp at h
          subst h
          rfl
        · next hz =>
          simp at h
          subst h
          rfl
      · simp at h
      · next hr =>
        split at h
        · next hz =>
          simp at h
          subst h
          rfl
        · next hz =>
          simp at h
          subst h
          rfl
      · next hr =>
        simp at h
        subst h
        rfl
      · simp at h
    · simp at h

theorem quiet_iff (s : State) :
    s.quiet = true ↔ ∀ i, i < s.ncallers → (s.callers i).pc = .returned := by
  simp [State.quiet, List.all_eq_true, List.mem_range]

theorem seq_init : SeqInv init := by
  constructor <;> simp [init, Caller.fresh, SfCall.fresh, keyContext.fresh]

theorem seq_others {s s' : State} (h : Trans s s') (hS : SeqInv s)
    (hq : s'.ncallers ≠ s.ncallers → ∀ i, i < s.ncallers → (s.callers i).pc = .returned) :
    ∀ i, i + 1 < s'.ncallers → (s'.callers i).pc = .returned := by
  intro j hj
  have hold := hS.others j
  cases h <;> simp [State.addCaller, Forget, State.setCaller, State.setKc, State.setCall,
    deleteKeyContext, upd] at hj hq ⊢ <;> (try split) <;> (try simp_all) <;> (try omega)

theorem seq_noChan {s s' : State} (h : Trans s s') (hS : SeqInv s)
    (hq : s'.ncallers ≠ s.ncallers → (s'.callers s.ncallers).isChan = false) :
    ∀ i, (s'.callers i).isChan = false := by
  intro j
  have hold := hS.noChan j
  cases h <;> simp [State.addCaller, Forget, State.setCaller, State.setKc, State.setCall,
    deleteKeyContext, upd] at hq ⊢ <;> (try split) <;> (try simp_all)

theorem seq_dups_leader {s s' : State} (h : Trans s s') (hI : Inv s) (hS : SeqInv s) :
    (∀ r, (s'.calls r).dups = 0) ∧
    (∀ i r, (s'.callers i).call = some r → (s'.callers i).leader = true) := by
  have hlast : ∀ i, i < s.ncallers → (s.callers i).pc ≠ .returned → i + 1 = s.ncallers := by
    intro i hi hne
    by_contra hcon
    exact hne (hS.others i (by omega))
  cases h with
  | enterFollower i r hi hpc hr =>
    exfalso
    have h1 := hS.sf_key _ _ hr
    have h2 := hI.sf_lt _ _ hr
    have h3 := hS.waiting r h2 h1.2
    have h4 := (hI.owner_ok r h2).1
    have h5 := hlast i hi (by simp [hpc])
    have h6 := hlast _ h4 (by simp [h3])
    have : (s.calls r).owner = i := by omega
    rw [this, hpc] at h3
    exact absurd h3 (by simp)
  | _ =>
    constructor
    · intro q
      have := hS.dups q
      simp [State.addCaller, Forget, State.setCaller, State.setKc, State.setCall,
        deleteKeyContext, upd] <;> (try split) <;> (try simp_all [SfCall.fresh])
    · intro j q
      have := hS.leader j q
      simp [State.addCaller, Forget, State.setCaller, State.setKc, State.setCall,
        deleteKeyContext, upd] <;> (try split) <;> (try simp_all [Caller.fresh])

theorem seq_sf_key {s s' : State} (h : Trans s s') (hI : Inv s) (hS : SeqInv s) :
    ∀ key r, s'.g.sf key = some r → (s'.calls r).key = key ∧ (s'.calls r).done = false := by
  intro key q
  have hold := hS.sf_key key q
  have hlt := hI.sf_lt key q
  cases h with
  | enterLeader i k hi hpc hr hk =>
    simp only [State.setCaller]
    by_cases hkey : key = (s.callers i).key
    · subst hkey
      simp [upd, SfCall.fresh]
      intro hq
      subst hq
      simp
    · simp only [upd, hkey, if_false]
      intro hq
      have := hlt hq
      have hne : q ≠ s.ncalls := by omega
      simpa [hne] using hold hq
  | sfFinish r b hr hw hb =>
    simp only [State.setCall, sfRelease]
    intro hq
    have hq0 : s.g.sf key = some q := by
      split at hq
      · by_cases hkey : key = (s.calls r).key
        · simp [upd, hkey] at hq
        · simpa [upd, hkey] using hq
      · exact hq
    have hne : q ≠ r := by
      intro he
      subst he
      have hk := (hold hq0).1
      split at hq
      · simp [upd, hk] at hq
      · next hn =>
        rw [hk] at hn
        exact hn hq0
    simpa [upd, hne] using hold hq0
  | _ =>
    simp [State.addCaller, Forget, State.setCaller, State.setKc, State.setCall,
      deleteKeyContext, upd] <;> (try split) <;> (try simp_all)

theorem seq_waiting {s s' : State} (h : Trans s s') (hI : Inv s) (hS : SeqInv s) :
    ∀ r, r < s'.ncalls → (s'.calls r).done = false →
      (s'.callers (s'.calls r).owner).pc = .inSf := by
  intro q
  have hold := hS.waiting q
  have hok := hI.owner_ok q
  have hnc := hS.noChan
  cases h with
  | enterFollower i r hi hpc hr =>
    intro h1 h2
    have h1' : q < s.ncalls := h1
    have h2' : (s.calls q).done = false := by
      by_cases hq : q = r
      · subst hq
        simpa [State.setCaller, State.setCall, upd] using h2
      · simpa [State.setCaller, State.setCall, upd, hq] using h2
    have h3 := hold h1' h2'
    have ho : ((s.setCall r { s.calls r with dups := (s.calls r).dups + 1 }).calls q).owner
        = (s.calls q).owner := by
      by_cases hq : q = r
      · subst hq
        simp [State.setCall, upd]
      · simp [State.setCall, upd, hq]
    simp only [State.setCaller]
    rw [ho]
    by_cases hoi : (s.calls q).owner = i
    · simp [upd, hoi, afterEnter, hnc i]
    · simp [upd, hoi, h3, State.setCall]
  | enterLeader i k hi hpc hr hk =>
    intro h1 h2
    simp only [State.setCaller] at h1 h2 ⊢
    by_cases hq : q = s.ncalls
    · subst hq
      simp [upd, SfCall.fresh, afterEnter, hnc i]
    · have h1' : q < s.ncalls := by omega
      have h2' : (s.calls q).done = false := by simpa [upd, hq] using h2
      have h3 := hold h1' h2'
      by_cases hoi : (s.calls q).owner = i
      · simp [upd, hq, hoi, afterEnter, hnc i]
      · simp [upd, hq, hoi, h3]
  | inSf i r hi hpc hc hd =>
    intro h1 h2
    simp only [State.setCaller] at h1 h2 ⊢
    have h3 := hold h1 h2
    by_cases hoi : (s.calls q).owner = i
    · exfalso
      have := (hok h1).2.2
      rw [hoi, hc] at this
      injection this with this
      subst this
      rw [hd] at h2
      exact absurd h2 (by simp)
    · simp [upd, hoi, h3]
  | _ =>
    simp [State.addCaller, Forget, State.setCaller, State.setKc, State.setCall,
      deleteKeyContext, upd, SfCall.fresh] <;> (try split) <;> (try simp_all [afterEnter])

theorem seq_unshared {s s' : State} (h : Trans s s') (hS : SeqInv s) :
    ∀ i v sh, (s'.callers i).ret = some (v, sh) → sh = false := by
  intro j v sh
  have hold := hS.unshared j v sh
  have hd := hS.dups
  have hl := hS.leader j
  have hnc := hS.noChan j
  cases h <;> simp [State.addCaller, Forget, State.setCaller, State.setKc, State.setCall,
    deleteKeyContext, upd, Caller.fresh] <;> (try split) <;> (try simp_all)

theorem seq_last {s : State} (hS : SeqInv s) (i : Nat) (hi : i < s.ncallers)
    (hne : (s.callers i).pc ≠ .returned) : i = s.ncallers - 1 := by
  by_contra hcon
  exact hne (hS.others i (by omega))

theorem seq_live {s s' : State} (h : Trans s s') (hS : SeqInv s) : s'.crashed = false := by
  have hl := hS.live
  cases h with
  | reaperPanic k hk hr hz => exact absurd (hS.released k hr) hz
  | _ => simpa [State.addCaller, Forget, State.setCaller, State.setKc, State.setCall,
      deleteKeyContext] using hl

theorem seq_released {s s' : State} (h : Trans s s') (hI : Inv s) (hS : SeqInv s) :
    ∀ k, (s'.heap k).reaper = .released → (s'.heap k).counter = 0 := by
  intro q
  have hold := hS.released q
  cases h with
  | add i k hi hpc hk =>
    have hs := hI.shape i
    simp [Caller.Shape, hpc, PC.rank] at hs
    have hu := hS.unregistered i k hk hs.2.1
    by_cases hq : q = k
    · subst hq
      simp [State.setCaller, State.setKc, upd]
      intro hr
      exact absurd hr hu.2.2
    · simpa [State.setCaller, State.setKc, upd, hq] using hold
  | watcher i k hi hw hk hc hpos =>
    by_cases hq : q = k
    · subst hq
      simp only [State.setCaller, State.setKc, upd, if_true, keyContext.wgDone]
      intro hr
      split at hr
      · next h1 =>
        show (s.heap q).counter - 1 = 0
        omega
      · have := hold hr
        omega
    · simpa [State.setCaller, State.setKc, upd, hq] using hold
  | _ =>
    simp [State.addCaller, Forget, State.setCaller, State.setKc, State.setCall,
      deleteKeyContext, upd, keyContext.fresh] <;> (try split) <;> (try simp_all)

theorem seq_entry_none {s : State} (hS : SeqInv s) (i : Nat) (hi : i < s.ncallers)
    (hp : (s.callers i).pc.rank < 2 ∨ 5 < (s.callers i).pc.rank)
    (hne : (s.callers i).pc ≠ .returned) (key : Key) : s.g.kcs key = none := by
  cases hk : s.g.kcs key with
  | none => rfl
  | some k =>
    exfalso
    have he := hS.entry key k hk
    have := seq_last hS i hi hne
    rw [← this] at he
    omega

theorem seq_unregistered {s s' : State} (h : Trans s s') (hI : Inv s) (hS : SeqInv s) :
    ∀ i k, (s'.callers i).kc = some k → (s'.callers i).registered = false →
      (s'.heap k).counter = 0 ∧ (s'.heap k).reaper ≠ .blocked ∧
        (s'.heap k).reaper ≠ .released := by
  intro j q
  have hold := hS.unregistered j q
  have hlt := hI.kc_lt j q
  cases h with
  | getKcOld i k hi hpc hk =>
    have := seq_entry_none hS i hi (by simp [hpc, PC.rank]) (by simp [hpc]) (s.callers i).key
    rw [this] at hk
    exact absurd hk (by simp)
  | getKcNew i hi hpc hk ho =>
    by_cases hj : j = i
    · subst hj
      simp [State.setCaller, upd, keyContext.fresh]
      intro hq _
      subst hq
      simp
    · simp only [State.setCaller, upd, hj, if_false]
      intro h1 h2
      have := hlt h1
      have hne : q ≠ s.nheap := by omega
      simpa [hne] using hold h1 h2
  | add i k hi hpc hk =>
    by_cases hj : j = i
    · subst hj
      simp [State.setCaller, upd]
    · simp only [State.setCaller, State.setKc, upd, hj, if_false]
      intro h1 h2
      exfalso
      have hs := hI.shape j
      simp only [Caller.Shape] at hs
      have hr : (s.callers j).pc.rank < 3 := by
        by_contra hcon
        have := hs.2.1.2 (by omega)
        rw [h2] at this
        exact absurd this (by simp)
      have hjn : j < s.ncallers := by
        by_contra hcon
        have := hS.beyond j (by omega)
        rw [this] at h1
        exact absurd h1 (by simp)
      have h3 := seq_last hS j hjn (by intro hp; rw [hp] at hr; simp [PC.rank] at hr)
      have h4 := seq_last hS i hi (by simp [hpc])
      omega
  | watcher i k hi hw hk hc hpos =>
    by_cases hq : q = k
    · subst hq
      by_cases hj : j = i
      · subst hj
        simp [State.setCaller, upd]
        intro _ hreg
        have hs := hI.shape j
        simp [Caller.Shape, hw] at hs
        have : (s.callers j).registered = true := by
          rw [hs.2.1]
          omega
        rw [this] at hreg
        exact absurd hreg (by simp)
      · simp only [State.setCaller, State.setKc, upd, hj, if_false, if_true]
        intro h1 h2
        have := (hold h1 h2).1
        omega
    · by_cases hj : j = i
      · subst hj
        simp only [State.setCaller, State.setKc, upd, if_true, hq, if_false]
        intro h1
        rw [hk] at h1
        injection h1 with h1
        exact absurd h1.symm hq
      · simpa [State.setCaller, State.setKc, upd, hj, hq] using hold
  | reaperBlock k hk hr hz =>
    by_cases hq : q = k
    · subst hq
      simp only [State.setKc, upd, if_true]
      intro h1 h2
      exact absurd (hold h1 h2).1 hz
    · simpa [State.setKc, upd, hq] using hold
  | _ =>
    simp [State.addCaller, Forget, State.setCaller, State.setKc, State.setCall,
      deleteKeyContext, upd, keyContext.fresh, Caller.fresh] <;> (try split) <;>
      (try simp_all)

theorem seq_beyond {s s' : State} (h : Trans s s') (hS : SeqInv s) :
    ∀ i, s'.ncallers ≤ i → (s'.callers i).kc = none := by
  intro j
  have hold := hS.beyond j
  cases h <;> simp [State.addCaller, Forget, State.setCaller, State.setKc, State.setCall,
    deleteKeyContext, upd, Caller.fresh] <;> (try split) <;> (try simp_all)
  intro hj
  exact hold (by omega)

theorem seq_no_follower {s : State} (hI : Inv s) (hS : SeqInv s) (i r : Nat)
    (hi : i < s.ncallers) (hpc : (s.callers i).pc = .sfEnter)
    (hr : s.g.sf (s.callers i).key = some r) : False := by
  have h1 := hS.sf_key _ _ hr
  have h2 := hI.sf_lt _ _ hr
  have h3 := hS.waiting r h2 h1.2
  have h4 := (hI.owner_ok r h2).1
  have h5 := seq_last hS i hi (by simp [hpc])
  have h6 := seq_last hS _ h4 (by simp [h3])
  have : (s.calls r).owner = i := by omega
  rw [this, hpc] at h3
  exact absurd h3 (by simp)

theorem seq_entry {s s' : State} (h : Trans s s') (hI : Inv s) (hS : SeqInv s)
    (hq : s'.ncallers ≠ s.ncallers → s.quiet = true) :
    ∀ key k, s'.g.kcs key = some k →
      0 < s'.ncallers ∧ (s'.callers (s'.ncallers - 1)).key = key ∧
        (s'.callers (s'.ncallers - 1)).kc = some k ∧
        2 ≤ (s'.callers (s'.ncallers - 1)).pc.rank ∧
        (s'.callers (s'.ncallers - 1)).pc.rank ≤ 5 ∧
        ∀ r, (s'.callers (s'.ncallers - 1)).call = some r → (s'.calls r).wpc.rank ≤ 2 := by
  intro key q
  have hold := hS.entry key q
  have hnc := hS.noChan
  cases h with
  | addCaller isChan key0 fn =>
    intro hk
    exfalso
    have hk0 : s.g.kcs key = some q := hk
    obtain ⟨h0, _, _, _, h5, _⟩ := hold hk0
    have hqt := (quiet_iff s).1 (hq (by simp [State.addCaller])) (s.ncallers - 1) (by omega)
    rw [hqt] at h5
    simp [PC.rank] at h5
  | forget key0 => exact hold
  | cancel i hi =>
    intro hk
    obtain ⟨h0, h1, h2, h3, h4, h5⟩ := hold hk
    by_cases hia : s.ncallers - 1 = i
    · subst hia
      simpa [State.setCaller, upd] using ⟨h0, h1, h2, h3, h4, h5⟩
    · simpa [State.setCaller, upd, hia] using ⟨h0, h1, h2, h3, h4, h5⟩
  | once i hi hpc =>
    intro hk
    exfalso
    have hia := seq_last hS i hi (by simp [hpc])
    obtain ⟨_, _, _, h3, _, _⟩ := hold hk
    rw [← hia, hpc] at h3
    simp [PC.rank] at h3
  | getKcOld i k hi hpc hk0 =>
    intro hk
    exfalso
    have hia := seq_last hS i hi (by simp [hpc])
    obtain ⟨_, _, _, h3, _, _⟩ := hold hk
    rw [← hia, hpc] at h3
    simp [PC.rank] at h3
  | getKcNew i hi hpc hk0 ho =>
    have hia := seq_last hS i hi (by simp [hpc])
    have hs := hI.shape i
    simp [Caller.Shape, hpc, PC.rank] at hs
    have hnone := seq_entry_none hS i hi (by simp [hpc, PC.rank]) (by simp [hpc])
    simp only [State.setCaller]
    rw [← hia]
    by_cases hkey : key = (s.callers i).key
    · subst hkey
      simp [upd, PC.rank, hs]
      intro hq2
      exact ⟨by omega, hq2⟩
    · simp [upd, hkey, hnone key]
  | add i k hi hpc hk0 =>
    intro hk
    have hia := seq_last hS i hi (by simp [hpc])
    obtain ⟨h0, h1, h2, h3, h4, h5⟩ := hold hk
    rw [← hia] at h1 h2 h5
    simp only [State.setCaller, State.setKc]
    rw [← hia]
    simpa [upd, PC.rank] using ⟨h0, h1, h2, h5⟩
  | spawn i hi hpc =>
    intro hk
    have hia := seq_last hS i hi (by simp [hpc])
    obtain ⟨h0, h1, h2, h3, h4, h5⟩ := hold hk
    rw [← hia] at h1 h2 h5
    simp only [State.setCaller]
    rw [← hia]
    simpa [upd, PC.rank] using ⟨h0, h1, h2, h5⟩
  | enterFollower i r hi hpc hr => exact absurd (seq_no_follower hI hS i r hi hpc hr) id
  | enterLeader i k hi hpc hr hk0 =>
    intro hk
    have hia := seq_last hS i hi (by simp [hpc])
    obtain ⟨h0, h1, h2, h3, h4, h5⟩ := hold hk
    rw [← hia] at h1 h2 h5
    simp only [State.setCaller]
    rw [← hia]
    simpa [upd, PC.rank, afterEnter, hnc i, SfCall.fresh, WPC.rank] using ⟨h0, h1, h2⟩
  | inSf i r hi hpc hc hd =>
    intro hk
    exfalso
    have hia := seq_last hS i hi (by simp [hpc])
    obtain ⟨_, _, _, _, _, h5⟩ := hold hk
    rw [← hia] at h5
    have := h5 r hc
    have hcs := (hI.cshape r).1.1 hd
    rw [hcs] at this
    simp [WPC.rank] at this
  | deferCancel i hi hpc =>
    intro hk
    exfalso
    have hia := seq_last hS i hi (by simp [hpc])
    obtain ⟨_, _, _, _, h4, _⟩ := hold hk
    rw [← hia, hpc] at h4
    simp [PC.rank] at h4
  | recv i r hi hpc hc hd =>
    intro hk
    exfalso
    have hia := seq_last hS i hi (by simp [hpc])
    obtain ⟨_, _, _, _, h4, _⟩ := hold hk
    rw [← hia, hpc] at h4
    simp [PC.rank] at h4
  | fnCall r hr hw =>
    intro hk
    obtain ⟨h0, h1, h2, h3, h4, h5⟩ := hold hk
    refine ⟨h0, h1, h2, h3, h4, ?_⟩
    intro r2 hr2
    have := h5 r2 hr2
    by_cases he : r2 = r
    · subst he
      simp [State.setCall, upd, WPC.rank]
    · simpa [State.setCall, upd, he] using this
  | fnReturn r hr hw =>
    intro hk
    obtain ⟨h0, h1, h2, h3, h4, h5⟩ := hold hk
    refine ⟨h0, h1, h2, h3, h4, ?_⟩
    intro r2 hr2
    have := h5 r2 hr2
    by_cases he : r2 = r
    · subst he
      simp [State.setCall, upd, WPC.rank]
    · simpa [State.setCall, upd, he] using this
  | delete r hr hw =>
    intro hk
    simp only [State.setCall, deleteKeyContext] at hk
    by_cases hkey : key = (s.calls r).key
    · simp [upd, hkey] at hk
    · have hk0 : s.g.kcs key = some q := by simpa [upd, hkey] using hk
      obtain ⟨h0, h1, h2, h3, h4, h5⟩ := hold hk0
      refine ⟨h0, h1, h2, h3, h4, ?_⟩
      intro r2 hr2
      have hr2' : (s.callers (s.ncallers - 1)).call = some r2 := hr2
      have := h5 r2 hr2'
      by_cases he : r2 = r
      · subst he
        exfalso
        have hl := hS.leader _ _ hr2'
        have := (hI.owner _ _ hl hr2').2.2.1
        rw [this, h1] at hkey
        exact hkey rfl
      · simpa [State.setCall, upd, he] using this
  | kcCancel r hr hw =>
    intro hk
    obtain ⟨h0, h1, h2, h3, h4, h5⟩ := hold hk
    refine ⟨h0, h1, h2, h3, h4, ?_⟩
    intro r2 hr2
    have := h5 r2 hr2
    by_cases he : r2 = r
    · subst he
      rw [hw] at this
      simp [WPC.rank] at this
    · simpa [State.setCall, State.setKc, upd, he] using this
  | sfFinish r b hr hw hb =>
    intro hk
    obtain ⟨h0, h1, h2, h3, h4, h5⟩ := hold hk
    refine ⟨h0, h1, h2, h3, h4, ?_⟩
    intro r2 hr2
    have := h5 r2 hr2
    by_cases he : r2 = r
    · subst he
      rw [hw] at this
      simp [WPC.rank] at this
    · simpa [State.setCall, upd, he] using this
  | watcher i k hi hw hk0 hc hpos =>
    intro hk
    obtain ⟨h0, h1, h2, h3, h4, h5⟩ := hold hk
    by_cases hia : s.ncallers - 1 = i
    · subst hia
      simpa [State.setCaller, State.setKc, upd] using ⟨h0, h1, h2, h3, h4, h5⟩
    · simpa [State.setCaller, State.setKc, upd, hia] using ⟨h0, h1, h2, h3, h4, h5⟩
  | reaperWake k hk0 hr hz => exact hold
  | reaperBlock k hk0 hr hz => exact hold
  | reaperResume k hk0 hr hz => exact hold
  | reaperPanic k hk0 hr hz => exact hold
  | reaperCancel k hk0 hr => exact hold

theorem seq_trans {s s' : State} (h : Trans s s') (hI : Inv s) (hS : SeqInv s)
    (hq : s'.ncallers ≠ s.ncallers → s.quiet = true ∧
      (s'.callers s.ncallers).isChan = false) : SeqInv s' := by
  have hdl := seq_dups_leader h hI hS
  exact
    { others := seq_others h hS (fun hn => (quiet_iff s).1 (hq hn).1)
      noChan := seq_noChan h hS (fun hn => (hq hn).2)
      leader := hdl.2
      dups := hdl.1
      sf_key := seq_sf_key h hI hS
      waiting := seq_waiting h hI hS
      unshared := seq_unshared h hS
      entry := seq_entry h hI hS (fun hn => (hq hn).1)
      unregistered := seq_unregistered h hI hS
      released := seq_released h hI hS
      live := seq_live h hS
      beyond := seq_beyond h hS }

theorem runSeq_run {tr : List Action} {s s' : State} (h : runSeq s tr = some s') :
    run s tr = some s' := by
  induction tr generalizing s with
  | nil => simpa [runSeq, run] using h
  | cons a tr ih =>
    simp only [runSeq] at h
    split at h
    · cases hs : step s a with
      | none => simp [hs] at h
      | some s1 =>
        simp [hs] at h
        simp [run, hs, ih h]
    · simp at h

theorem seq_step {s s' : State} {a : Action} (hok : seqOk s a = true)
    (h : step s a = some s') (hI : Inv s) (hS : SeqInv s) : SeqInv s' := by
  refine seq_trans (trans_of_step h) hI hS ?_
  cases a with
  | Do key fn =>
    simp [seqOk] at hok
    have h2 := (step_live h).2
    simp [stepLive] at h2
    subst h2
    intro _
    simp [hok, State.addCaller, upd, Caller.fresh]
  | DoChan key fn => simp [seqOk] at hok
  | _ =>
    intro hn
    exact absurd (ncallers_step h (by simp) (by simp)) hn

theorem seq_run {tr : List Action} {s s' : State} (hI : Inv s) (hS : SeqInv s)
    (h : runSeq s tr = some s') : SeqInv s' := by
  induction tr generalizing s with
  | nil =>
    simp [runSeq] at h
    exact h ▸ hS
  | cons a tr ih =>
    simp only [runSeq] at h
    split at h
    · next hok =>
      cases hs : step s a with
      | none => simp [hs] at h
      | some s1 =>
        simp [hs] at h
        exact ih (inv_step hI hs) (seq_step hok hs hI hS) h
    · simp at h

theorem upd_same {α β : Type} [DecidableEq α] (f : α → β) (a : α) (v : β) :
    upd f a v a = v := by
  simp [upd]

theorem upd_upd {α β : Type} [DecidableEq α] (f : α → β) (a : α) (v w : β) :
    upd (upd f a v) a w = upd f a w := by
  funext x
  simp only [upd]
  split <;> rfl

theorem quiet_sf_none {s : State} (hI : Inv s) (hS : SeqInv s) (hq : s.quiet = true)
    (key : Key) : s.g.sf key = none := by
  cases hsf : s.g.sf key with
  | none => rfl
  | some r =>
    exfalso
    have h1 := hS.sf_key _ _ hsf
    have h2 := hI.sf_lt _ _ hsf
    have h3 := hS.waiting r h2 h1.2
    have h4 := (hI.owner_ok r h2).1
    have h5 := (quiet_iff s).1 hq _ h4
    rw [h5] at h3
    exact absurd h3 (by simp)

set_option maxHeartbeats 4000000 in
theorem do_alone_returns (s : State) (hsf : ∀ key, s.g.sf key = none) (hq : s.quiet = true)
    (hlive : s.crashed = false) (key : Key) (fn : Bool → Res) :
    ∃ s' b, runSeq s (.Do key fn :: doAlone s.ncallers s.ncalls) = some s' ∧
      s'.quiet = true ∧ s'.ncallers = s.ncallers + 1 ∧
      (s'.callers s.ncallers).pc = .returned ∧
      (s'.callers s.ncallers).fn = fn ∧
      (s'.callers s.ncallers).ret = some (fn b, false) ∧
      (s'.calls s.ncalls).owner = s.ncallers ∧ (s'.calls s.ncalls).runs = 1 ∧
      (s'.calls s.ncalls).observed = some b := by
  have hq' := (quiet_iff s).1 hq
  have hfin : ∀ (c : Caller), c.pc = .returned → ∀ i, i < s.ncallers + 1 →
      (upd s.callers s.ncallers c i).pc = .returned := by
    intro c hc i hi
    by_cases h : i = s.ncallers
    · simp [upd, h, hc]
    · simp [upd, h]
      exact hq' i (by omega)
  cases hk : s.g.kcs key with
  | none =>
    simp [runSeq, seqOk, hq, doAlone, step, stepLive, hlive, mainStep, wrapperStep, getKeyContext,
      State.addCaller,
      State.setCaller, State.setKc, State.setCall, deleteKeyContext, upd_same, upd_upd,
      Caller.fresh, SfCall.fresh, afterEnter, hsf, hk, sfRelease, keyContext.fresh, quiet_iff]
    exact hfin _ rfl
  | some k =>
    simp [runSeq, seqOk, hq, doAlone, step, stepLive, hlive, mainStep, wrapperStep, getKeyContext,
      State.addCaller,
      State.setCaller, State.setKc, State.setCall, deleteKeyContext, upd_same, upd_upd,
      Caller.fresh, SfCall.fresh, afterEnter, hsf, hk, sfRelease, keyContext.fresh, quiet_iff]
    refine ⟨hfin _ rfl, ?_⟩
    cases (s.heap k).cancelled <;> simp

/-- C4: in every state reached by non-overlapping `Do` calls on the zero-value
group (watchers, reapers and `Forget` scheduled freely), every call that has
returned owns exactly one deduplicator record, that record ran the call's own
`fn` exactly once, and the call returned the `(value, error)` that `fn`
returned with `shared = false`; and whenever all earlier calls have returned,
a further `Do` for any key and function runs to its return, giving back what
its own `fn` returned, unshared. -/
theorem serial_do_returns_own_result (tr : List Action) (s : State)
    (h : runSeq init tr = some s) :
    (∀ i, i < s.ncallers → (s.callers i).pc = .returned →
      ∃ r b, (s.callers i).call = some r ∧ (s.calls r).owner = i ∧
        (s.calls r).fn = (s.callers i).fn ∧
        (∀ q, q < s.ncalls → (s.calls q).owner = i → q = r) ∧
        (s.calls r).runs = 1 ∧ (s.calls r).observed = some b ∧
        (s.callers i).ret = some ((s.callers i).fn b, false)) ∧
    (s.quiet = true → ∀ key fn,
      ∃ s' b, runSeq s (.Do key fn :: doAlone s.ncallers s.ncalls) = some s' ∧
        s'.quiet = true ∧ s'.ncallers = s.ncallers + 1 ∧
        (s'.callers s.ncallers).pc = .returned ∧
        (s'.callers s.ncallers).fn = fn ∧
        (s'.callers s.ncallers).ret = some (fn b, false) ∧
        (s'.calls s.ncalls).owner = s.ncallers ∧ (s'.calls s.ncalls).runs = 1 ∧
        (s'.calls s.ncalls).observed = some b) := by
  have hI := inv_run inv_init (runSeq_run h)
  have hS := seq_run inv_init seq_init h
  constructor
  · intro i _ hpc
    have hs := hI.shape i
    simp [Caller.Shape, hpc, PC.rank, hS.noChan i] at hs
    obtain ⟨_, _, _, _, hret, _⟩ := hs
    cases hr : (s.callers i).ret with
    | none => exact absurd hr hret
    | some p =>
      obtain ⟨v, sh⟩ := p
      obtain ⟨r, hc, hd, hv⟩ := hI.ret_val i v sh hr
      have hl := hS.leader i r hc
      obtain ⟨ho, hfn, _, _⟩ := hI.owner i r hl hc
      have hcs := hI.cshape r
      simp only [SfCall.Shape] at hcs
      obtain ⟨h1, h2, _, h4⟩ := hcs
      obtain ⟨b, hb, hvb⟩ := h4 hd
      have hsh := hS.unshared i v sh hr
      refine ⟨r, b, hc, ho, hfn, ?_, ?_, hb, ?_⟩
      · intro q hq hqo
        have := (hI.owner_ok q hq).2.2
        rw [hqo, hc] at this
        injection this with this
        exact this.symm
      · rw [h2, h1.1 hd]
        simp
      · rw [hsh, ← hv, hvb, hfn]
  · intro hq key fn
    exact do_alone_returns s (quiet_sf_none hI hS hq) hq hS.live key fn

/-- C1 (code evaluated at the failing schedule): in
`TestTwoDoCallsWithOneCancelledContext`, when the reaper runs before the first
`kc.wg.Add(1)`, `fn` is running on a cancelled shared context although caller
1, registered on that `keyContext`, never had its context cancelled and its
watcher has not fired; and both callers then return `"", context.Canceled`
instead of `"foo", nil`. -/
theorem one_cancelled_shared_context_cancelled :
    (run init traceOneCancelledEnd).isSome = true ∧
    ((stateAfter traceOneCancelled).calls 0).wpc = .fnRunning ∧
    ((stateAfter traceOneCancelled).calls 0).kc = 0 ∧
    ((stateAfter traceOneCancelled).heap 0).cancelled = true ∧
    ((stateAfter traceOneCancelled).callers 1).kc = some 0 ∧
    ((stateAfter traceOneCancelled).callers 1).registered = true ∧
    ((stateAfter traceOneCancelled).callers 1).ctxCancelled = false ∧
    ((stateAfter traceOneCancelled).callers 1).watcher = .waiting ∧
    ((stateAfter traceOneCancelledEnd).callers 0).ret
      = some ((.str "", some .canceled), true) ∧
    ((stateAfter traceOneCancelledEnd).callers 1).ret
      = some ((.str "", some .canceled), true) := by
  decide

/-- C2 (code evaluated at the failing schedule): two `Do` calls for `"k"`
that overlap in time, with no `Forget`.  Caller 1 enters `Do` and fetches the
`keyContext` while the `fn` of caller 0 is running; the leader's thunk then
finishes and the deduplicator drops its record before caller 1 reaches it, so
caller 1 starts a second execution: `fn` is invoked twice, on the same
`keyContext`, and the two callers receive different results, `"foo", nil` and
`"", context.Canceled`, although neither caller's context was cancelled. -/
theorem overlapping_do_runs_fn_twice :
    (run init traceStaleEnd).isSome = true ∧
    ((stateAfter traceStaleFetch).callers 0).key = "k" ∧
    ((stateAfter traceStaleFetch).callers 1).key = "k" ∧
    ((stateAfter traceStaleFetch).callers 0).pc = .inSf ∧
    ((stateAfter traceStaleFetch).calls 0).wpc = .fnRunning ∧
    ((stateAfter traceStaleFetch).callers 1).pc = .add ∧
    ((stateAfter traceStaleFetch).callers 1).kc = some 0 ∧
    (stateAfter traceStaleEnd).crashed = false ∧
    (stateAfter traceStaleEnd).ncallers = 2 ∧
    (stateAfter traceStaleEnd).ncalls = 2 ∧
    (stateAfter traceStaleEnd).nheap = 1 ∧
    ((stateAfter traceStaleEnd).callers 0).call = some 0 ∧
    ((stateAfter traceStaleEnd).callers 1).call = some 1 ∧
    ((stateAfter traceStaleEnd).calls 0).runs = 1 ∧
    ((stateAfter traceStaleEnd).calls 1).runs = 1 ∧
    ((stateAfter traceStaleEnd).calls 0).observed = some false ∧
    ((stateAfter traceStaleEnd).calls 1).observed = some true ∧
    ((stateAfter traceStaleEnd).callers 0).ctxCancelled = false ∧
    ((stateAfter traceStaleEnd).callers 1).ctxCancelled = false ∧
    ((stateAfter traceStaleEnd).callers 0).pc = .returned ∧
    ((stateAfter traceStaleEnd).callers 1).pc = .returned ∧
    ((stateAfter traceStaleEnd).callers 0).ret = some ((.str "foo", none), false) ∧
    ((stateAfter traceStaleEnd).callers 1).ret
      = some ((.str "", some .canceled), false) := by
  decide

/-- C3 (counterexample): in `TestTwoDoCallsWithTwoCancelledContext`, at the
point where both registered callers have had their contexts cancelled and both
watchers have run while `fn` is running, the counter is zero, but the reaper
is a goroutine of its own and need not have run yet: `fn` returns having seen
its context uncancelled (it got past its cancellation check), and both callers
receive `"foo", nil` instead of `context.Canceled`. -/
theorem all_cancelled_fn_returns_first_counterexample :
    (run init traceAllCancelledFnFirst).isSome = true ∧
    fnSelect true = (.str "", some .canceled) ∧
    (stateAfter traceAllCancelled).ncallers = 2 ∧
    ((stateAfter traceAllCancelled).calls 0).wpc = .fnRunning ∧
    ((stateAfter traceAllCancelled).calls 0).kc = 0 ∧
    ((stateAfter traceAllCancelled).callers 0).kc = some 0 ∧
    ((stateAfter traceAllCancelled).callers 1).kc = some 0 ∧
    ((stateAfter traceAllCancelled).callers 0).registered = true ∧
    ((stateAfter traceAllCancelled).callers 1).registered = true ∧
    ((stateAfter traceAllCancelled).callers 0).ctxCancelled = true ∧
    ((stateAfter traceAllCancelled).callers 1).ctxCancelled = true ∧
    ((stateAfter traceAllCancelled).callers 0).watcher = .fired ∧
    ((stateAfter traceAllCancelled).callers 1).watcher = .fired ∧
    ((stateAfter traceAllCancelled).heap 0).counter = 0 ∧
    ((stateAfter traceAllCancelled).heap 0).cancelled = false ∧
    (stateAfter traceAllCancelledFnFirst).crashed = false ∧
    ((stateAfter traceAllCancelledFnFirst).heap 0).reaper = .waiting ∧
    ((stateAfter traceAllCancelledFnFirst).calls 0).observed = some false ∧
    ((stateAfter traceAllCancelledFnFirst).callers 0).pc = .returned ∧
    ((stateAfter traceAllCancelledFnFirst).callers 1).pc = .returned ∧
    ((stateAfter traceAllCancelledFnFirst).callers 0).ret
      = some ((.str "foo", none), true) ∧
    ((stateAfter traceAllCancelledFnFirst).callers 1).ret
      = some ((.str "foo", none), true) := by
  decide

/-- The `sync.WaitGroup` misuse in the setting of
`TestTwoDoCallsWithTwoCancelledContext`: the watcher of caller 0 takes the
counter from 1 to 0 and releases the reaper blocked in `kc.wg.Wait()`; caller
1 runs `kc.wg.Add(1)` on the same `keyContext` before the reaper resumes; the
reaper then panics and the process is dead: no further step is possible and
neither caller has returned. -/
theorem wait_group_reuse_crash :
    (run init (traceReuse ++ [.reaper 0])).isSome = true ∧
    ((stateAfter traceReuse).heap 0).reaper = .released ∧
    ((stateAfter traceReuse).heap 0).counter = 1 ∧
    ((stateAfter traceReuse).callers 0).ctxCancelled = true ∧
    ((stateAfter traceReuse).callers 0).watcher = .fired ∧
    ((stateAfter traceReuse).callers 1).kc = some 0 ∧
    ((stateAfter traceReuse).callers 1).registered = true ∧
    (stateAfter traceReuse).crashed = false ∧
    (stateAfter (traceReuse ++ [.reaper 0])).crashed = true ∧
    ((stateAfter (traceReuse ++ [.reaper 0])).callers 0).ret = none ∧
    ((stateAfter (traceReuse ++ [.reaper 0])).callers 1).ret = none ∧
    (step (stateAfter (traceReuse ++ [.reaper 0])) (.main 0)).isNone = true ∧
    (step (stateAfter (traceReuse ++ [.reaper 0])) (.main 1)).isNone = true ∧
    (step (stateAfter (traceReuse ++ [.reaper 0])) (.wrapper 0)).isNone = true := by
  decide

/-- C5 (code evaluated at the failing schedule): a single `DoChan` call whose
context is never cancelled.  `DoChan` returns its channel and its deferred
`cancel()` makes the watcher drop the caller from the `keyContext`, so the
reaper cancels the shared context while `fn` is still running and before any
result is delivered; `fn` then returns `"", context.Canceled`, which is what
the channel delivers. -/
theorem do_chan_cancels_shared_context :
    (run init traceDoChanEnd).isSome = true ∧
    ((stateAfter traceDoChan).calls 0).wpc = .fnRunning ∧
    ((stateAfter traceDoChan).calls 0).done = false ∧
    ((stateAfter traceDoChan).callers 0).ctxCancelled = false ∧
    ((stateAfter traceDoChan).callers 0).pc = .recv ∧
    ((stateAfter traceDoChan).callers 0).watcher = .fired ∧
    ((stateAfter traceDoChan).heap 0).counter = 0 ∧
    ((stateAfter traceDoChan).heap 0).cancelled = true ∧
    ((stateAfter traceDoChanEnd).callers 0).ret
      = some ((.str "", some .canceled), false) := by
  decide

/-- C6 (code evaluated at the failing schedule): in scenario S6 the `Do` that
arrives after `Forget("k")` is handed the `keyContext` of the execution still
in flight (only one `keyContext` is ever allocated and both callers hold it).
When the second execution completes, its teardown cancels the context on which
the first `fn` is still running, although no caller's context was cancelled
and no reaper has run; the first `fn` then sees its context cancelled and the
first call returns `"", context.Canceled`, while the second call has returned
`"foo", nil`. -/
theorem forget_then_do_cancels_running_context :
    (run init traceForgetEnd).isSome = true ∧
    ((stateAfter traceInFlight).calls 0).wpc = .fnRunning ∧
    ((stateAfter traceInFlight).heap 0).cancelled = false ∧
    (stateAfter traceForget).nheap = 1 ∧
    ((stateAfter traceForget).callers 0).kc = some 0 ∧
    ((stateAfter traceForget).callers 1).kc = some 0 ∧
    ((stateAfter traceForget).calls 0).kc = 0 ∧
    ((stateAfter traceForget).calls 1).kc = 0 ∧
    ((stateAfter traceForget).callers 1).pc = .returned ∧
    ((stateAfter traceForget).callers 1).ret = some ((.str "foo", none), false) ∧
    ((stateAfter traceForget).calls 0).wpc = .fnRunning ∧
    ((stateAfter traceForget).callers 0).ctxCancelled = false ∧
    ((stateAfter traceForget).callers 1).ctxCancelled = false ∧
    ((stateAfter traceForget).heap 0).reaper = .waiting ∧
    ((stateAfter traceForget).heap 0).cancelled = true ∧
    (stateAfter traceForgetEnd).crashed = false ∧
    ((stateAfter traceForgetEnd).calls 0).observed = some true ∧
    ((stateAfter traceForgetEnd).calls 0).runs = 1 ∧
    ((stateAfter traceForgetEnd).calls 1).runs = 1 ∧
    ((stateAfter traceForgetEnd).callers 0).ctxCancelled = false ∧
    ((stateAfter traceForgetEnd).callers 0).pc = .returned ∧
    ((stateAfter traceForgetEnd).callers 0).ret
      = some ((.str "", some .canceled), false) := by
  decide

/-- C8 (code evaluated at the failing schedule): caller 1 registers between the
leader's `deleteKeyContext` and the deduplicator dropping the record, so it
creates a second `keyContext` and then joins the running record as a
follower.  After both calls have returned, and all watchers and reapers have
finished, the map still holds the entry for `"k"`, pointing at a `keyContext`
whose context is cancelled. -/
theorem mapping_entry_leaks :
    (run init traceLeak).isSome = true ∧
    (stateAfter traceLeak).ncallers = 2 ∧
    ((stateAfter traceLeak).callers 0).pc = .returned ∧
    ((stateAfter traceLeak).callers 1).pc = .returned ∧
    ((stateAfter traceLeak).callers 0).watcher = .fired ∧
    ((stateAfter traceLeak).callers 1).watcher = .fired ∧
    ((stateAfter traceLeak).heap 0).reaper = .finished ∧
    ((stateAfter traceLeak).heap 1).reaper = .finished ∧
    ((stateAfter traceLeak).calls 0).wpc = .finished ∧
    (stateAfter traceLeak).ncalls = 1 ∧
    (stateAfter traceLeak).g.kcs "k" = some 1 ∧
    ((stateAfter traceLeak).heap 1).cancelled = true := by
  decide

/-- C9 (code evaluated at the failing schedule): caller 1 fetches the
existing `keyContext` 0 while the leader's `fn` is running; the leader's
teardown then removes the entry and cancels that context and the deduplicator
drops the record; caller 1 goes on, becomes the leader of a new record, and
its thunk calls `fn` with the context of `keyContext` 0, already cancelled,
although the context of caller 1 was never cancelled. -/
theorem follower_stranded_on_stale_key_context :
    (run init traceStale).isSome = true ∧
    ((stateAfter traceStaleFetch).callers 1).kc = some 0 ∧
    ((stateAfter traceStaleFetch).callers 1).pc = .add ∧
    ((stateAfter traceStaleFetch).calls 0).wpc = .fnRunning ∧
    (stateAfter traceStaleFetch).g.kcs "k" = some 0 ∧
    ((stateAfter traceStale).calls 0).wpc = .finished ∧
    (stateAfter traceStale).g.kcs "k" = none ∧
    ((stateAfter traceStale).calls 1).owner = 1 ∧
    ((stateAfter traceStale).calls 1).wpc = .fnRunning ∧
    ((stateAfter traceStale).calls 1).kc = 0 ∧
    ((stateAfter traceStale).heap 0).cancelled = true ∧
    ((stateAfter traceStale).callers 1).ctxCancelled = false := by
  decide

/-- C10 (code evaluated at the failing schedule): the reaper started in
`getKeyContext` finds the counter at zero, returns from `kc.wg.Wait()` and
cancels the shared context while the creating caller has not yet executed
`kc.wg.Add(1)`. -/
theorem reaper_runs_before_first_add :
    (run init traceReaperFirst).isSome = true ∧
    ((stateAfter traceReaperFirst).callers 0).pc = .add ∧
    ((stateAfter traceReaperFirst).callers 0).kc = some 0 ∧
    ((stateAfter traceReaperFirst).callers 0).registered = false ∧
    ((stateAfter traceReaperFirst).heap 0).counter = 0 ∧
    ((stateAfter traceReaperFirst).heap 0).reaper = .finished ∧
    ((stateAfter traceReaperFirst).heap 0).cancelled = true := by
  decide

theorem reachable_stateAfter (tr : List Action) (h : (run init tr).isSome = true) :
    Reachable (stateAfter tr) := by
  refine ⟨tr, ?_⟩
  unfold stateAfter
  cases hr : run init tr with
  | none => simp [hr] at h
  | some s => rfl

/-- Witness for C3 (amended): the schedule of
`TestTwoDoCallsWithTwoCancelledContext` at the point where both contexts are
cancelled and both watchers have run; when the reaper runs next, both callers
return `"", context.Canceled`. -/
theorem all_cancelled_cancels_witness :
    Reachable (stateAfter traceAllCancelled) ∧
    (stateAfter traceAllCancelled).crashed = false ∧
    ((stateAfter traceAllCancelled).calls 0).wpc = .fnRunning ∧
    (stateAfter traceAllCancelled).ncallers = 2 ∧
    ((stateAfter traceAllCancelled).callers 0).registered = true ∧
    ((stateAfter traceAllCancelled).callers 1).registered = true ∧
    (run init traceAllCancelledReaperFirst).isSome = true ∧
    ((stateAfter traceAllCancelledReaperFirst).callers 0).ret
      = some ((.str "", some .canceled), true) ∧
    ((stateAfter traceAllCancelledReaperFirst).callers 1).ret
      = some ((.str "", some .canceled), true) ∧
    (((stateAfter traceAllCancelled).heap
        ((stateAfter traceAllCancelled).calls 0).kc).counter = 0 ∧
      (∃ m s1, m ≤ 2 ∧ run (stateAfter traceAllCancelled)
          (List.replicate m (.reaper ((stateAfter traceAllCancelled).calls 0).kc)) = some s1 ∧
        (s1.heap ((stateAfter traceAllCancelled).calls 0).kc).cancelled = true ∧
        (s1.calls 0).wpc = .fnRunning ∧ s1.crashed = false) ∧
      ∀ tr s1, run (stateAfter traceAllCancelled) tr = some s1 →
        (s1.heap ((stateAfter traceAllCancelled).calls 0).kc).cancelled = true →
        (s1.calls 0).wpc = .fnRunning → s1.crashed = false →
        (∃ s3, run s1 [.wrapper 0, .wrapper 0, .wrapper 0, .wrapper 0] = some s3 ∧
          (s3.calls 0).done = true ∧
          (s3.calls 0).val = ((stateAfter traceAllCancelled).calls 0).fn true ∧
          s3.crashed = false) ∧
        ∀ tr2 s2, run s1 tr2 = some s2 →
          (s2.calls 0).observed ≠ some false ∧
          (∀ i v sh, (s2.callers i).call = some 0 → (s2.callers i).ret = some (v, sh) →
            v = ((stateAfter traceAllCancelled).calls 0).fn true ∧
              v.2 = some Err.canceled) ∧
          ((s2.calls 0).done = true → s2.crashed = false →
            ∀ i, i < s2.ncallers → (s2.callers i).call = some 0 →
              (s2.callers i).isChan = false → (s2.callers i).pc ≠ .returned →
              ∃ m s4, m ≤ 2 ∧ run s2 (List.replicate m (.main i)) = some s4 ∧
                (s4.callers i).pc = .returned ∧
                ∃ sh, (s4.callers i).ret
                  = some (((stateAfter traceAllCancelled).calls 0).fn true, sh))) :=
  have hR := reachable_stateAfter traceAllCancelled (by decide)
  have hn : (stateAfter traceAllCancelled).ncallers = 2 := by decide
  ⟨hR, by decide, by decide, hn, by decide, by decide, by decide, by decide, by decide,
    all_cancelled_cancels (stateAfter traceAllCancelled) hR (by decide) 0 (by decide)
      (by decide) (by decide) (by
        intro j hj
        rw [hn] at hj
        interval_cases j <;> decide)⟩

/-- Witness for C4: the schedule of `TestSerialDoCallsForSameKey`. -/
theorem serial_do_returns_own_result_witness :
    (runSeq init traceSerial).isSome = true ∧
    ∃ r b, (((runSeq init traceSerial).getD init).callers 1).call = some r ∧
      (((runSeq init traceSerial).getD init).calls r).owner = 1 ∧
      (((runSeq init traceSerial).getD init).calls r).runs = 1 ∧
      (((runSeq init traceSerial).getD init).callers 1).ret =
        some ((((runSeq init traceSerial).getD init).callers 1).fn b, false) :=
  have h := (serial_do_returns_own_result traceSerial ((runSeq init traceSerial).getD init)
    rfl).1 1 (by decide) (by decide)
  ⟨by decide, h.elim (fun r hr => hr.elim (fun b hb =>
    ⟨r, b, hb.1, hb.2.1, hb.2.2.2.2.1, hb.2.2.2.2.2.2⟩))⟩

end Contextflight
